import Mathlib

/-!
Verification of the tile-boundary-to-physics-chain extraction performed by
LevelService::init (src/engine/prefabs/services.h): edge collection over a
solid/empty cell grid, loop walking over the boundary edge set, winding
correction via a quarter-cell probe, and collinear vertex reduction.

The embedding fixes the C++ unordered containers as insertion-ordered lists
(the hash iteration order is unspecified in the source; insertion order is
one admissible instantiation).  Float arithmetic in the winding probe is
embedded as exact rational arithmetic; the square root is exact on the
axis-aligned segments the pipeline produces.
-/

/-- Lattice corner point, mirroring ldtk::IntPoint. -/
structure IntPoint where
  x : Int
  y : Int
deriving DecidableEq, Repr

/-- Undirected edge stored canonically (struct Edge in services.h). -/
structure Edge where
  a : IntPoint
  b : IntPoint
deriving DecidableEq, Repr

/-- A rectangular grid of classified cells.  `cells` is the caller-supplied
classifier (collision-name matching in the source), consulted only in bounds. -/
structure Grid where
  W : Int
  H : Int
  cells : Int → Int → Bool

/-- LevelService::is_solid: out-of-bounds coordinates are never solid. -/
def isSolid (g : Grid) (x y : Int) : Bool :=
  if x < 0 || y < 0 || x ≥ g.W || y ≥ g.H then false else g.cells x y

/-- make_edge: order the endpoints lexicographically (swap when p1 < p0). -/
def mkEdge (p0 p1 : IntPoint) : Edge :=
  if p1.x < p0.x ∨ (p1.x = p0.x ∧ p1.y < p0.y) then ⟨p1, p0⟩ else ⟨p0, p1⟩

/-- Set insertion for the edge set (std::unordered_set::insert), with the
iteration order instantiated as insertion order. -/
def insertEdge (es : List Edge) (e : Edge) : List Edge :=
  if e ∈ es then es else es ++ [e]

/-- The four conditional boundary-edge insertions performed for one cell of
the scan in LevelService::init (skipped entirely for non-solid cells). -/
def cellStep (g : Grid) (x y : Int) (es : List Edge) : List Edge :=
  if isSolid g x y then
    let es1 := if isSolid g x (y-1) then es  else insertEdge es  (mkEdge ⟨x, y⟩ ⟨x+1, y⟩)
    let es2 := if isSolid g x (y+1) then es1 else insertEdge es1 (mkEdge ⟨x, y+1⟩ ⟨x+1, y+1⟩)
    let es3 := if isSolid g (x-1) y then es2 else insertEdge es2 (mkEdge ⟨x, y⟩ ⟨x, y+1⟩)
    if isSolid g (x+1) y then es3 else insertEdge es3 (mkEdge ⟨x+1, y⟩ ⟨x+1, y+1⟩)
  else es

/-- Integer coordinates 0, 1, ..., n-1 (empty for n ≤ 0). -/
def rangeInt (n : Int) : List Int := (List.range n.toNat).map Nat.cast

/-- The edge-collection double scan over all cells (row-major, y outer). -/
def collectEdges (g : Grid) : List Edge :=
  (rangeInt g.H).foldl
    (fun acc y => (rangeInt g.W).foldl (fun acc2 x => cellStep g x y acc2) acc) []

/-- The adjacency map: for each edge, e.b is appended to adj[e.a] and e.a to
adj[e.b], in edge-set iteration order.  Built once from the full edge set. -/
def adjOf (es : List Edge) (v : IntPoint) : List IntPoint :=
  es.foldl (fun acc e =>
    acc ++ (if e.a = v then [e.b] else []) ++ (if e.b = v then [e.a] else [])) []

/-- The candidate scan inside the walker: first neighbour that is not `prev`
and whose edge to `cur` is still present in the remaining edge set. -/
def findNext (es : List Edge) (prev cur : IntPoint) : List IntPoint → Option IntPoint
  | [] => none
  | c :: cs =>
    if c = prev then findNext es prev cur cs
    else if mkEdge cur c ∈ es then some c
    else findNext es prev cur cs

/-- The inner while-loop of the walker.  One fuel unit per iteration; the
source's own 100,000-point cap makes fuel 100000 always sufficient. -/
def walkInner (adj : IntPoint → List IntPoint) (start : IntPoint) :
    Nat → List Edge → IntPoint → IntPoint → List IntPoint → List IntPoint × List Edge
  | 0, es, _, _, poly => (poly, es)
  | fuel+1, es, prev, cur, poly =>
    if cur = start then (poly, es)
    else
      match findNext es prev cur (adj cur) with
      | none => (poly, es)
      | some nxt =>
        let es2 := es.erase (mkEdge cur nxt)
        let poly2 := poly ++ [nxt]
        if 100000 < poly2.length then (poly2, es2)
        else walkInner adj start fuel es2 cur nxt poly2

/-- Drop the duplicated trailing vertex of a closed walk. -/
def popDup (poly : List IntPoint) : List IntPoint :=
  if poly ≠ [] ∧ poly.getLast? = poly.head? then poly.dropLast else poly

/-- The outer drain loop: pick the first remaining edge, walk from it,
record the walked polygon, repeat until the edge set is empty. -/
def walkOuter (adj : IntPoint → List IntPoint) : Nat → List Edge → List (List IntPoint)
  | 0, _ => []
  | _+1, [] => []
  | fuel+1, e :: rest =>
    let es1 := (e :: rest).erase (mkEdge e.a e.b)
    let r := walkInner adj e.a 100000 es1 e.a e.b [e.a, e.b]
    popDup r.1 :: walkOuter adj fuel r.2

/-- All polygons produced by draining the collected edge set of a grid. -/
def walkPolys (g : Grid) : List (List IntPoint) :=
  let es := collectEdges g
  walkOuter (adjOf es) es.length es

/-- Polygons kept by the walker (at least 3 points). -/
def keptPolys (g : Grid) : List (List IntPoint) :=
  (walkPolys g).filter (fun p => 3 ≤ p.length)

/-- Structurally recursive integer square root (agrees with Nat.sqrt). -/
def natSqrtLin : Nat → Nat
  | 0 => 0
  | n+1 =>
    let r := natSqrtLin n
    if (r+1)*(r+1) ≤ n+1 then r+1 else r

/-- Exact square root of an integer as a rational (exact on the perfect
squares arising from the axis-aligned segments the walker produces). -/
def intSqrtQ (n : Int) : ℚ := (natSqrtLin n.toNat : ℚ)

/-- The wrapping pairs (l[i], l[(i+1) % n]) scanned by the winding test. -/
def wrapPairs (l : List IntPoint) : List (IntPoint × IntPoint) := l.zip (l.rotate 1)

/-- Body of LevelService::loop_has_solid_on_right: skip degenerate edges,
compute the right normal of the first usable edge, probe a quarter cell to
its right of the midpoint, map the sample back to a grid cell and classify.
`f` is cell_size * scale. -/
def solidOnRightAux (g : Grid) (f : ℚ) : List (IntPoint × IntPoint) → Bool
  | [] => false
  | (a, b) :: rest =>
    let dx := b.x - a.x
    let dy := b.y - a.y
    if dx = 0 ∧ dy = 0 then solidOnRightAux g f rest
    else
      let ax : ℚ := (a.x : ℚ) * f
      let ay : ℚ := (a.y : ℚ) * f
      let bx : ℚ := (b.x : ℚ) * f
      let bytmp : ℚ := (b.y : ℚ) * f
      let ex0 := bx - ax
      let ey0 := bytmp - ay
      let len := f * intSqrtQ (dx*dx + dy*dy)
      if len < 1/10000 then solidOnRightAux g f rest
      else
        let ex := ex0 / len
        let ey := ey0 / len
        let rx := -ey
        let ry := ex
        let mx := (ax + bx) / 2
        let my2 := (ay + bytmp) / 2
        let eps := f / 4
        let sx := mx + rx * eps
        let sy := my2 + ry * eps
        let gx := ⌊sx / f⌋
        let gy := ⌊sy / f⌋
        isSolid g gx gy

/-- LevelService::loop_has_solid_on_right on a whole loop. -/
def loopHasSolidOnRight (loop : List IntPoint) (g : Grid) (c : Int) (s : ℚ) : Bool :=
  solidOnRightAux g ((c : ℚ) * s) (wrapPairs loop)

/-- The winding-correction step: reverse the loop when solid is not on the
right of the probed edge. -/
def correctLoop (g : Grid) (c : Int) (s : ℚ) (poly : List IntPoint) : List IntPoint :=
  if loopHasSolidOnRight poly g c s then poly else poly.reverse

/-- Normalised segment direction used by the vertex reducer (grid units).
A zero-length segment normalises to the zero vector, as in the source. -/
def dirQ (a b : IntPoint) : ℚ × ℚ :=
  let dx := b.x - a.x
  let dy := b.y - a.y
  let len := intSqrtQ (dx*dx + dy*dy)
  if len = 0 then (0, 0) else ((dx : ℚ) / len, (dy : ℚ) / len)

/-- The reducer scan from the second point on: keep a point exactly when the
segment direction changes; always emit the final point. -/
def reduceRun (orig : ℚ × ℚ) (a : IntPoint) : List IntPoint → List IntPoint
  | [] => [a]
  | b :: rest =>
    let n := dirQ a b
    if n = orig then reduceRun orig b rest
    else a :: reduceRun n b rest

/-- The vertex-reduction step: first point kept, direction initialised from
the first segment, final point appended unconditionally. -/
def reduceLoop : List IntPoint → List IntPoint
  | [] => []
  | [p] => [p, p]
  | a :: b :: rest => a :: reduceRun (dirQ a b) b rest

/-- The full extraction: walk the collected edges, keep loops of at least 3
points, correct the winding, reduce collinear runs. -/
def extractLoops (g : Grid) (c : Int) (s : ℚ) : List (List IntPoint) :=
  (keptPolys g).map (fun p => reduceLoop (correctLoop g c s p))


/-! ### Basic facts about canonical edges, insertion and the collector scan -/

/-- Lexicographic order on corner points, the canonical endpoint order. -/
def lexLE (p q : IntPoint) : Prop := p.x < q.x ∨ (p.x = q.x ∧ p.y ≤ q.y)

/-- Axis-aligned unit step between two corner points. -/
def unitStep (p q : IntPoint) : Prop :=
  (p.x = q.x ∧ (q.y - p.y).natAbs = 1) ∨ (p.y = q.y ∧ (q.x - p.x).natAbs = 1)

theorem IntPoint.ext2 {p q : IntPoint} (hx : p.x = q.x) (hy : p.y = q.y) : p = q := by
  cases p; cases q; simp_all

theorem mkEdge_comm (p q : IntPoint) : mkEdge p q = mkEdge q p := by
  unfold mkEdge
  split_ifs with h1 h2
  · exact absurd h2 (by omega)
  · rfl
  · rfl
  · have h : p = q := IntPoint.ext2 (by omega) (by omega)
    rw [h]

theorem mkEdge_lex (p q : IntPoint) : lexLE (mkEdge p q).a (mkEdge p q).b := by
  unfold mkEdge lexLE
  split_ifs with h <;> dsimp only <;> omega

theorem mkEdge_pair (p q : IntPoint) :
    (mkEdge p q).a = p ∧ (mkEdge p q).b = q ∨ (mkEdge p q).a = q ∧ (mkEdge p q).b = p := by
  unfold mkEdge
  split_ifs <;> simp

theorem mem_insertEdge {es : List Edge} {e f : Edge} :
    f ∈ insertEdge es e ↔ f ∈ es ∨ f = e := by
  unfold insertEdge
  split_ifs with h
  · constructor
    · exact Or.inl
    · rintro (hf | rfl) <;> assumption
  · simp

theorem nodup_insertEdge {es : List Edge} {e : Edge} (h : es.Nodup) :
    (insertEdge es e).Nodup := by
  unfold insertEdge
  split_ifs with hmem
  · exact h
  · simpa [List.nodup_append, h] using hmem

/-- Generic membership law for a left fold whose step adds elements
characterised by a predicate. -/
theorem foldl_mem {α β : Type} (step : List α → β → List α) (Q : β → α → Prop)
    (hstep : ∀ acc b e, e ∈ step acc b ↔ e ∈ acc ∨ Q b e) :
    ∀ (l : List β) (acc : List α) (e : α),
      e ∈ l.foldl step acc ↔ e ∈ acc ∨ ∃ b ∈ l, Q b e := by
  intro l
  induction l with
  | nil => simp
  | cons x xs ih =>
    intro acc e
    rw [List.foldl_cons, ih, hstep]
    constructor
    · rintro ((h | h) | ⟨b, hb, hq⟩)
      · exact Or.inl h
      · exact Or.inr ⟨x, by simp, h⟩
      · exact Or.inr ⟨b, by simp [hb], hq⟩
    · rintro (h | ⟨b, hb, hq⟩)
      · exact Or.inl (Or.inl h)
      · rcases List.mem_cons.1 hb with rfl | hb
        · exact Or.inl (Or.inr hq)
        · exact Or.inr ⟨b, hb, hq⟩

theorem foldl_nodup {α β : Type} (step : List α → β → List α)
    (hstep : ∀ acc b, acc.Nodup → (step acc b).Nodup) :
    ∀ (l : List β) (acc : List α), acc.Nodup → (l.foldl step acc).Nodup := by
  intro l
  induction l with
  | nil => exact fun acc h => h
  | cons x xs ih => exact fun acc h => ih _ (hstep acc x h)

/-- The boundary edges contributed by one cell of the scan. -/
def genAt (g : Grid) (x y : Int) (e : Edge) : Prop :=
  isSolid g x y = true ∧
    ((isSolid g x (y-1) = false ∧ e = mkEdge ⟨x, y⟩ ⟨x+1, y⟩) ∨
     (isSolid g x (y+1) = false ∧ e = mkEdge ⟨x, y+1⟩ ⟨x+1, y+1⟩) ∨
     (isSolid g (x-1) y = false ∧ e = mkEdge ⟨x, y⟩ ⟨x, y+1⟩) ∨
     (isSolid g (x+1) y = false ∧ e = mkEdge ⟨x+1, y⟩ ⟨x+1, y+1⟩))

theorem mem_cellStep {g : Grid} {x y : Int} {es : List Edge} {e : Edge} :
    e ∈ cellStep g x y es ↔ e ∈ es ∨ genAt g x y e := by
  simp only [cellStep, genAt]
  split_ifs with h0 h1 h2 h3 h4 <;>
    simp_all [mem_insertEdge, Bool.not_eq_true] <;> tauto

theorem nodup_cellStep {g : Grid} {x y : Int} {es : List Edge} (h : es.Nodup) :
    (cellStep g x y es).Nodup := by
  simp only [cellStep]
  split_ifs <;> solve_by_elim [nodup_insertEdge]

theorem mem_rangeInt {n x : Int} : x ∈ rangeInt n ↔ 0 ≤ x ∧ x < n := by
  unfold rangeInt
  simp only [List.mem_map, List.mem_range]
  constructor
  · rintro ⟨m, hm, rfl⟩
    constructor <;> omega
  · rintro ⟨h0, hn⟩
    exact ⟨x.toNat, by omega, by omega⟩

theorem isSolid_bounds {g : Grid} {x y : Int} (h : isSolid g x y = true) :
    0 ≤ x ∧ x < g.W ∧ 0 ≤ y ∧ y < g.H := by
  unfold isSolid at h
  split_ifs at h with hc
  simp only [Bool.or_eq_true, decide_eq_true_eq, not_or] at hc
  omega

theorem mem_collectEdges {g : Grid} {e : Edge} :
    e ∈ collectEdges g ↔ ∃ x y : Int, genAt g x y e := by
  have hin : ∀ (y : Int) (acc : List Edge) (e : Edge),
      e ∈ (rangeInt g.W).foldl (fun acc2 x => cellStep g x y acc2) acc ↔
        e ∈ acc ∨ ∃ x ∈ rangeInt g.W, genAt g x y e :=
    fun y acc e =>
      foldl_mem _ (fun x e => genAt g x y e) (fun _ _ _ => mem_cellStep) _ acc e
  rw [collectEdges, foldl_mem _ (fun y e => ∃ x ∈ rangeInt g.W, genAt g x y e)
    (fun acc y e => hin y acc e)]
  simp only [List.not_mem_nil, false_or]
  constructor
  · rintro ⟨y, _, x, _, hgen⟩
    exact ⟨x, y, hgen⟩
  · rintro ⟨x, y, hgen⟩
    have hb := isSolid_bounds hgen.1
    exact ⟨y, mem_rangeInt.2 ⟨hb.2.2.1, hb.2.2.2⟩, x, mem_rangeInt.2 ⟨hb.1, hb.2.1⟩, hgen⟩

theorem collectEdges_nodup (g : Grid) : (collectEdges g).Nodup := by
  have : ∀ (y : Int) (acc : List Edge), acc.Nodup →
      ((rangeInt g.W).foldl (fun acc2 x => cellStep g x y acc2) acc).Nodup :=
    fun y => foldl_nodup _ (fun acc x => nodup_cellStep) _
  exact foldl_nodup _ (fun acc y h => this y acc h) _ _ List.nodup_nil

theorem genAt_shape {g : Grid} {x y : Int} {e : Edge} (h : genAt g x y e) :
    ∃ p q, e = mkEdge p q ∧ unitStep p q := by
  obtain ⟨-, h | h | h | h⟩ := h <;>
    exact ⟨_, _, h.2, by unfold unitStep; dsimp only; omega⟩

theorem collect_canonical {g : Grid} {e : Edge} (h : e ∈ collectEdges g) :
    lexLE e.a e.b := by
  obtain ⟨x, y, hgen⟩ := mem_collectEdges.1 h
  obtain ⟨p, q, rfl, -⟩ := genAt_shape hgen
  exact mkEdge_lex p q

theorem unitStep_mkEdge {p q : IntPoint} (h : unitStep p q) :
    unitStep (mkEdge p q).a (mkEdge p q).b := by
  rcases mkEdge_pair p q with ⟨ha, hb⟩ | ⟨ha, hb⟩ <;> rw [ha, hb]
  · exact h
  · unfold unitStep at h ⊢; omega

theorem collect_unit {g : Grid} {e : Edge} (h : e ∈ collectEdges g) :
    unitStep e.a e.b := by
  obtain ⟨x, y, hgen⟩ := mem_collectEdges.1 h
  obtain ⟨p, q, rfl, hu⟩ := genAt_shape hgen
  exact unitStep_mkEdge hu

/-- The boundary-edge set described by the specification: one canonical unit
edge for each solid cell / non-solid neighbour adjacency. -/
def boundarySpec (g : Grid) (e : Edge) : Prop := ∃ x y : Int, genAt g x y e

/-- C1.  Edge collector correctness: membership in the collected edge set is
exactly the specified boundary-edge predicate (over solid in-bounds cells,
with out-of-bounds neighbours non-solid), each stored edge is canonically
ordered, and no undirected edge appears twice. -/
theorem C1_edge_collector (g : Grid) (e : Edge) :
    (e ∈ collectEdges g ↔ boundarySpec g e) ∧ (collectEdges g).Nodup ∧
      (e ∈ collectEdges g → lexLE e.a e.b) :=
  ⟨mem_collectEdges, collectEdges_nodup g, collect_canonical⟩

/-- Concrete 1-cell grid used by witnesses. -/
def gOne : Grid := ⟨1, 1, fun _ _ => true⟩

/-- C1 witness at a concrete grid and edge. -/
theorem C1_edge_collector_witness :
    lexLE (mkEdge ⟨0, 0⟩ ⟨1, 0⟩).a (mkEdge ⟨0, 0⟩ ⟨1, 0⟩).b ∧
      ((mkEdge ⟨0, 0⟩ ⟨1, 0⟩) ∈ collectEdges gOne ↔ boundarySpec gOne (mkEdge ⟨0, 0⟩ ⟨1, 0⟩)) :=
  ⟨(C1_edge_collector gOne (mkEdge ⟨0, 0⟩ ⟨1, 0⟩)).2.2 (by decide),
   (C1_edge_collector gOne (mkEdge ⟨0, 0⟩ ⟨1, 0⟩)).1⟩

/-! ### The winding corrector on fully degenerate loops (C4) -/

theorem allEq_of_pairs : ∀ (l : List IntPoint) (x z : IntPoint),
    (∀ pr ∈ (x :: l).zip (l ++ [z]), pr.1 = pr.2) → ∀ y ∈ x :: l, y = x := by
  intro l
  induction l with
  | nil =>
    intro x z _ y hy
    simpa using hy
  | cons b l2 ih =>
    intro x z h y hy
    have hxb : x = b := h (x, b) (by simp)
    rcases List.mem_cons.1 hy with rfl | hy2
    · rfl
    · have hb := ih b z (fun pr hpr => h pr (by simp [hpr])) y hy2
      rw [hb, ← hxb]

theorem degenerate_reverse {l : List IntPoint} (h : ∀ pr ∈ wrapPairs l, pr.1 = pr.2) :
    l.reverse = l := by
  cases l with
  | nil => rfl
  | cons a rest =>
    have hrot : (a :: rest).rotate 1 = rest ++ [a] := by
      simp [List.rotate_cons_succ]
    have hall : ∀ y ∈ a :: rest, y = a := by
      refine allEq_of_pairs rest a a ?_
      rw [wrapPairs, hrot] at h
      exact h
    have hrep : a :: rest = List.replicate (a :: rest).length a :=
      List.eq_replicate_of_mem hall
    rw [hrep, List.reverse_replicate]

/-- C4.  Winding-corrector degenerate fallback: a loop all of whose edges,
including the wrapping edge, are zero-length is passed through with its
point sequence unchanged (reversal of an all-equal sequence is the
identity, so the corrector applies no effective correction). -/
theorem C4_degenerate_loop_passthrough (g : Grid) (c : Int) (s : ℚ) (l : List IntPoint)
    (h : ∀ pr ∈ wrapPairs l, pr.1 = pr.2) : correctLoop g c s l = l := by
  unfold correctLoop
  split_ifs
  · rfl
  · exact degenerate_reverse h

/-- C4 witness: a concrete constant loop is returned unchanged. -/
theorem C4_witness :
    correctLoop gOne 1 1 [⟨0, 0⟩, ⟨0, 0⟩, ⟨0, 0⟩] = [⟨0, 0⟩, ⟨0, 0⟩, ⟨0, 0⟩] :=
  C4_degenerate_loop_passthrough gOne 1 1 _ (by decide)

/-! ### The vertex reducer: subsequence property (C9) -/

theorem reduceRun_sublist (orig : ℚ × ℚ) (a : IntPoint) (rest : List IntPoint) :
    (reduceRun orig a rest).Sublist (a :: rest) := by
  induction rest generalizing orig a with
  | nil => simp [reduceRun]
  | cons b rest ih =>
    simp only [reduceRun]
    split_ifs with h
    · exact (ih orig b).cons a
    · exact (ih (dirQ a b) b).cons₂ a

theorem reduceRun_ne_nil (orig : ℚ × ℚ) (a : IntPoint) (rest : List IntPoint) :
    reduceRun orig a rest ≠ [] := by
  induction rest generalizing orig a with
  | nil => simp [reduceRun]
  | cons b rest ih =>
    simp only [reduceRun]
    split_ifs with h
    · exact ih orig b
    · simp

theorem reduceRun_getLast (orig : ℚ × ℚ) (a : IntPoint) (rest : List IntPoint) :
    (reduceRun orig a rest).getLast? = (a :: rest).getLast? := by
  induction rest generalizing orig a with
  | nil => simp [reduceRun]
  | cons b rest ih =>
    simp only [reduceRun]
    split_ifs with h
    · rw [ih orig b, List.getLast?_cons_cons]
    · obtain ⟨c, t, hct⟩ := List.exists_cons_of_ne_nil (reduceRun_ne_nil (dirQ a b) b rest)
      rw [hct, List.getLast?_cons_cons, ← hct, ih (dirQ a b) b, List.getLast?_cons_cons]

/-- C9.  The reducer output is an order-preserving subsequence of its input
(no new points, no reordering), and it preserves the first and last point. -/
theorem C9_reducer_subsequence (l : List IntPoint) (h : 3 ≤ l.length) :
    (reduceLoop l).Sublist l ∧ (reduceLoop l).head? = l.head? ∧
      (reduceLoop l).getLast? = l.getLast? := by
  match l with
  | a :: b :: rest =>
    refine ⟨?_, ?_, ?_⟩
    · exact (reduceRun_sublist (dirQ a b) b rest).cons₂ a
    · rfl
    · show (a :: reduceRun (dirQ a b) b rest).getLast? = _
      obtain ⟨c, t, hct⟩ := List.exists_cons_of_ne_nil (reduceRun_ne_nil (dirQ a b) b rest)
      rw [hct, List.getLast?_cons_cons, ← hct, reduceRun_getLast, List.getLast?_cons_cons]

/-- C9 witness at a concrete loop. -/
theorem C9_witness :
    (reduceLoop [⟨0, 0⟩, ⟨1, 0⟩, ⟨2, 0⟩, ⟨2, 1⟩]).Sublist [⟨0, 0⟩, ⟨1, 0⟩, ⟨2, 0⟩, ⟨2, 1⟩] ∧
      (reduceLoop [⟨0, 0⟩, ⟨1, 0⟩, ⟨2, 0⟩, ⟨2, 1⟩]).head? = some ⟨0, 0⟩ ∧
      (reduceLoop [⟨0, 0⟩, ⟨1, 0⟩, ⟨2, 0⟩, ⟨2, 1⟩]).getLast? = some ⟨2, 1⟩ :=
  C9_reducer_subsequence [⟨0, 0⟩, ⟨1, 0⟩, ⟨2, 0⟩, ⟨2, 1⟩] (by decide)


/-! ### The vertex reducer: direction arithmetic and idempotence (C7) -/

theorem natSqrtLin_bounds : ∀ n, natSqrtLin n * natSqrtLin n ≤ n ∧
    n < (natSqrtLin n + 1) * (natSqrtLin n + 1) := by
  intro n
  induction n with
  | zero => simp [natSqrtLin]
  | succ n ih =>
    simp only [natSqrtLin]
    split_ifs with h
    · refine ⟨h, ?_⟩
      have h3 : (natSqrtLin n + 1) * (natSqrtLin n + 1) <
          (natSqrtLin n + 1 + 1) * (natSqrtLin n + 1 + 1) :=
        Nat.mul_self_lt_mul_self (by omega)
      linarith [ih.2]
    · exact ⟨Nat.le_succ_of_le ih.1, Nat.not_le.1 h⟩

theorem natSqrtLin_sq (k : Nat) : natSqrtLin (k * k) = k := by
  obtain ⟨h1, h2⟩ := natSqrtLin_bounds (k * k)
  have hrk : natSqrtLin (k * k) ≤ k := by
    by_contra hc
    push_neg at hc
    have h4 := Nat.mul_self_lt_mul_self hc
    linarith
  have hkr : k ≤ natSqrtLin (k * k) := by
    by_contra hc
    push_neg at hc
    have h4 := Nat.mul_self_le_mul_self (show natSqrtLin (k * k) + 1 ≤ k by omega)
    linarith
  omega

theorem natSqrtLin_pos {n : Nat} (h : 1 ≤ n) : 1 ≤ natSqrtLin n := by
  obtain ⟨h1, h2⟩ := natSqrtLin_bounds n
  by_contra hc
  have h0 : natSqrtLin n = 0 := by omega
  rw [h0] at h2
  norm_num at h2
  omega

theorem intSqrtQ_sq (d : Int) : intSqrtQ (d * d) = (d.natAbs : ℚ) := by
  unfold intSqrtQ
  have h1 : (d * d).toNat = d.natAbs * d.natAbs := by
    rw [← Int.natAbs_mul_self]
    exact Int.toNat_ofNat _
  rw [h1, natSqrtLin_sq]

def sgnQ (d : Int) : ℚ := if 0 < d then 1 else if d < 0 then -1 else 0

theorem sgnQ_eq_iff {u v : Int} :
    sgnQ u = sgnQ v ↔ (0 < u ∧ 0 < v) ∨ (u < 0 ∧ v < 0) ∨ (u = 0 ∧ v = 0) := by
  unfold sgnQ
  split_ifs <;> constructor <;> intro h <;> first | rfl | omega | norm_num at h

theorem int_div_natAbs (d : Int) : (d : ℚ) / (d.natAbs : ℚ) = sgnQ d := by
  unfold sgnQ
  rcases lt_trichotomy 0 d with hgt | heq | hlt
  · rw [if_pos hgt]
    have he : ((d.natAbs : ℚ)) = (d : ℚ) := by
      rw [Int.cast_natAbs]
      exact_mod_cast abs_of_pos hgt
    rw [he, div_self (by exact_mod_cast hgt.ne')]
  · subst heq
    simp
  · rw [if_neg (by omega), if_pos hlt]
    have he : ((d.natAbs : ℚ)) = -(d : ℚ) := by
      rw [Int.cast_natAbs]
      exact_mod_cast abs_of_neg hlt
    rw [he, div_neg, neg_eq_iff_eq_neg, neg_neg]
    rw [div_self (by intro h0; rw [Int.cast_eq_zero] at h0; omega)]

theorem dirQ_horiz {a b : IntPoint} (hy : a.y = b.y) :
    dirQ a b = (sgnQ (b.x - a.x), 0) := by
  simp only [dirQ]
  rw [← hy, sub_self, mul_zero, add_zero, intSqrtQ_sq]
  rcases eq_or_ne (b.x - a.x) 0 with heq | hne
  · rw [heq]
    simp [sgnQ]
  · rw [if_neg (by simpa using hne)]
    rw [int_div_natAbs]
    simp

theorem dirQ_vert {a b : IntPoint} (hx : a.x = b.x) :
    dirQ a b = (0, sgnQ (b.y - a.y)) := by
  simp only [dirQ]
  rw [← hx, sub_self, zero_mul, zero_add, intSqrtQ_sq]
  rcases eq_or_ne (b.y - a.y) 0 with heq | hne
  · rw [heq]
    simp [sgnQ]
  · rw [if_neg (by simpa using hne)]
    rw [int_div_natAbs]
    simp

/-- Two points on a common grid line (or equal). -/
def axisPair (p q : IntPoint) : Prop := p.x = q.x ∨ p.y = q.y

/-- Every consecutive pair of the list is axis-aligned. -/
def axisSteps (l : List IntPoint) : Prop := ∀ pr ∈ l.zip l.tail, axisPair pr.1 pr.2

theorem axisSteps_cons {a b : IntPoint} {rest : List IntPoint}
    (h : axisSteps (a :: b :: rest)) : axisPair a b ∧ axisSteps (b :: rest) := by
  constructor
  · exact h (a, b) (by simp)
  · intro pr hpr
    exact h pr (by simp [List.zip_cons_cons]; right; simpa using hpr)

theorem sgnQ_eq_zero_iff {d : Int} : sgnQ d = 0 ↔ d = 0 := by
  unfold sgnQ
  split_ifs <;> norm_num <;> omega

theorem dirQ_self (a : IntPoint) : dirQ a a = (0, 0) := by
  rw [dirQ_horiz rfl]
  simp [sgnQ]

theorem eq_of_dirQ_eq_zero {a b : IntPoint} (hax : axisPair a b)
    (h : dirQ a b = (0, 0)) : a = b := by
  rcases hax with hx | hy
  · rw [dirQ_vert hx] at h
    have h2 : sgnQ (b.y - a.y) = 0 := congrArg Prod.snd h
    have h3 : b.y = a.y := by have := sgnQ_eq_zero_iff.1 h2; omega
    exact IntPoint.ext2 hx h3.symm
  · rw [dirQ_horiz hy] at h
    have h2 : sgnQ (b.x - a.x) = 0 := congrArg Prod.fst h
    have h3 : b.x = a.x := by have := sgnQ_eq_zero_iff.1 h2; omega
    exact IntPoint.ext2 h3.symm hy

theorem sgnQ_ne_zero {d : Int} (h : d ≠ 0) : sgnQ d ≠ 0 := by
  intro h0
  exact h (sgnQ_eq_zero_iff.1 h0)

/-- Chaining straight segments: if the merged segment into `a` and the next
segment share a direction, the merged segment into `b` has it too. -/
theorem dirQ_trans {q a b : IntPoint} (h1 : axisPair q a) (h2 : axisPair a b)
    (he : dirQ q a = dirQ a b) : dirQ q b = dirQ a b ∧ axisPair q b := by
  by_cases hqa : q = a
  · subst hqa
    exact ⟨rfl, h2⟩
  by_cases hab : a = b
  · subst hab
    exact ⟨he, h1⟩
  rcases h1 with hx1 | hy1 <;> rcases h2 with hx2 | hy2
  · -- both vertical
    rw [dirQ_vert hx1, dirQ_vert hx2] at he
    have hs : sgnQ (a.y - q.y) = sgnQ (b.y - a.y) := congrArg Prod.snd he
    have hy1 : a.y ≠ q.y := fun hc => hqa (IntPoint.ext2 hx1 hc.symm)
    have hy2 : b.y ≠ a.y := fun hc => hab (IntPoint.ext2 hx2 hc.symm)
    have hcase := sgnQ_eq_iff.1 hs
    have hx3 : q.x = b.x := hx1.trans hx2
    refine ⟨?_, Or.inl hx3⟩
    rw [dirQ_vert hx3, dirQ_vert hx2]
    have : sgnQ (b.y - q.y) = sgnQ (b.y - a.y) := sgnQ_eq_iff.2 (by omega)
    rw [this]
  · -- vertical then horizontal: forces a = b or q = a, contradiction
    rw [dirQ_vert hx1, dirQ_horiz hy2] at he
    have hs : sgnQ (a.y - q.y) = 0 := by
      have := congrArg Prod.snd he
      simpa using this
    exact absurd (IntPoint.ext2 hx1 (by have := sgnQ_eq_zero_iff.1 hs; omega)) hqa
  · -- horizontal then vertical
    rw [dirQ_horiz hy1, dirQ_vert hx2] at he
    have hs : sgnQ (a.x - q.x) = 0 := by
      have := congrArg Prod.fst he
      simpa using this
    exact absurd (IntPoint.ext2 (by have := sgnQ_eq_zero_iff.1 hs; omega) hy1) hqa
  · -- both horizontal
    rw [dirQ_horiz hy1, dirQ_horiz hy2] at he
    have hs : sgnQ (a.x - q.x) = sgnQ (b.x - a.x) := congrArg Prod.fst he
    have hx1 : a.x ≠ q.x := fun hc => hqa (IntPoint.ext2 hc.symm hy1)
    have hx2 : b.x ≠ a.x := fun hc => hab (IntPoint.ext2 hc.symm hy2)
    have hcase := sgnQ_eq_iff.1 hs
    have hy3 : q.y = b.y := hy1.trans hy2
    refine ⟨?_, Or.inr hy3⟩
    rw [dirQ_horiz hy3, dirQ_horiz hy2]
    have : sgnQ (b.x - q.x) = sgnQ (b.x - a.x) := sgnQ_eq_iff.2 (by omega)
    rw [this]

/-- No two consecutive runs share a direction, starting from direction
`orig` into the head point. -/
def NCrel : (ℚ × ℚ) → IntPoint → List IntPoint → Prop
  | _, _, [] => True
  | orig, b, c :: r => dirQ b c ≠ orig ∧ NCrel (dirQ b c) c r

theorem reduceRun_of_NCrel : ∀ (rest : List IntPoint) (b : IntPoint) (orig : ℚ × ℚ),
    NCrel orig b rest → reduceRun orig b rest = b :: rest := by
  intro rest
  induction rest with
  | nil => intro b orig _; rfl
  | cons c r ih =>
    intro b orig h
    obtain ⟨hne, hr⟩ := h
    simp only [reduceRun]
    rw [if_neg hne, ih c (dirQ b c) hr]

/-- Structure of one reducer pass: the output of the run scan starts with a
point reached from the previous kept point in direction `orig`, and its
successive run directions all differ. -/
theorem reduceRun_NCrel_out : ∀ (rest : List IntPoint) (b q : IntPoint) (orig : ℚ × ℚ),
    axisPair q b → axisSteps (b :: rest) → dirQ q b = orig →
    ∃ h t, reduceRun orig b rest = h :: t ∧ dirQ q h = orig ∧ axisPair q h ∧
      NCrel (dirQ q h) h t := by
  intro rest
  induction rest with
  | nil =>
    intro b q orig hax _ hd
    exact ⟨b, [], rfl, hd, hax, trivial⟩
  | cons c r ih =>
    intro b q orig hax hsteps hd
    obtain ⟨haxbc, hsteps2⟩ := axisSteps_cons hsteps
    simp only [reduceRun]
    by_cases heq : dirQ b c = orig
    · rw [if_pos heq]
      have htr := dirQ_trans hax haxbc (hd.trans heq.symm)
      exact ih c q orig htr.2 hsteps2 (htr.1.trans heq)
    · rw [if_neg heq]
      obtain ⟨h, t, hout, hdir, haxo, hnc⟩ := ih c b (dirQ b c) haxbc hsteps2 rfl
      refine ⟨b, h :: t, by rw [hout], hd, hax, ?_⟩
      constructor
      · rw [hdir, hd]
        exact heq
      · exact hnc

/-- One reducer pass on a list whose run directions already all differ is
the identity (on lists that are not singletons). -/
theorem reduceLoop_of_NCrel : ∀ (l : List IntPoint), l.length ≠ 1 →
    (∀ a b rest, l = a :: b :: rest → NCrel (dirQ a b) b rest) → reduceLoop l = l := by
  intro l hl hnc
  match l with
  | [] => rfl
  | [p] => exact absurd rfl hl
  | a :: b :: rest =>
    show a :: reduceRun (dirQ a b) b rest = _
    rw [reduceRun_of_NCrel rest b (dirQ a b) (hnc a b rest rfl)]

/-- C7.  Reduction idempotence: applying the vertex reducer to its own
output returns that output unchanged, for every loop whose consecutive
points lie on common grid lines (the loops of the data model; on such
loops the embedded direction arithmetic is exact). -/
theorem C7_reduction_idempotent (l : List IntPoint) (h : axisSteps l) :
    reduceLoop (reduceLoop l) = reduceLoop l := by
  match l with
  | [] => rfl
  | [p] => rfl
  | a :: b :: rest =>
    obtain ⟨h1, h2⟩ := axisSteps_cons h
    obtain ⟨hd, t, heq, hdir, hax, hNC⟩ := reduceRun_NCrel_out rest b a (dirQ a b) h1 h2 rfl
    show reduceLoop (a :: reduceRun (dirQ a b) b rest) = _
    rw [heq]
    show a :: reduceRun (dirQ a hd) hd t = _
    rw [hdir, reduceRun_of_NCrel t hd (dirQ a b) (by rw [← hdir]; exact hNC)]
    rw [show reduceLoop (a :: b :: rest) = a :: reduceRun (dirQ a b) b rest from rfl, heq]

instance (p q : IntPoint) : Decidable (axisPair p q) := by
  unfold axisPair; infer_instance

instance (l : List IntPoint) : Decidable (axisSteps l) := by
  unfold axisSteps; infer_instance

/-- C7 witness at a concrete loop. -/
theorem C7_witness :
    axisSteps [⟨0, 0⟩, ⟨1, 0⟩, ⟨2, 0⟩, ⟨2, 1⟩] ∧
      reduceLoop (reduceLoop [⟨0, 0⟩, ⟨1, 0⟩, ⟨2, 0⟩, ⟨2, 1⟩]) =
        reduceLoop [⟨0, 0⟩, ⟨1, 0⟩, ⟨2, 0⟩, ⟨2, 1⟩] :=
  ⟨by decide, C7_reduction_idempotent _ (by decide)⟩

/-! ### The winding probe: scale independence (C10) -/

theorem intSqrtQ_pos {n : Int} (hn : 1 ≤ n) : 1 ≤ intSqrtQ n := by
  unfold intSqrtQ
  have h1 : 1 ≤ natSqrtLin n.toNat := natSqrtLin_pos (by omega)
  exact_mod_cast h1

theorem solidOnRightAux_scale (g : Grid) (f : ℚ) (hf : 1/10000 ≤ f) :
    ∀ prs, solidOnRightAux g f prs = solidOnRightAux g 1 prs := by
  have hf0 : 0 < f := lt_of_lt_of_le (by norm_num) hf
  intro prs
  induction prs with
  | nil => rfl
  | cons pr rest ih =>
    obtain ⟨a, b⟩ := pr
    simp only [solidOnRightAux]
    by_cases hz : b.x - a.x = 0 ∧ b.y - a.y = 0
    · rw [if_pos hz, if_pos hz, ih]
    · rw [if_neg hz, if_neg hz]
      have hk : 1 ≤ intSqrtQ ((b.x - a.x) * (b.x - a.x) + (b.y - a.y) * (b.y - a.y)) := by
        apply intSqrtQ_pos
        rcases not_and_or.1 hz with h | h
        · have h1 : 0 < (b.x - a.x) * (b.x - a.x) := mul_self_pos.2 h
          have h2 : 0 ≤ (b.y - a.y) * (b.y - a.y) := mul_self_nonneg _
          omega
        · have h1 : 0 < (b.y - a.y) * (b.y - a.y) := mul_self_pos.2 h
          have h2 : 0 ≤ (b.x - a.x) * (b.x - a.x) := mul_self_nonneg _
          omega
      set k := intSqrtQ ((b.x - a.x) * (b.x - a.x) + (b.y - a.y) * (b.y - a.y)) with hkdef
      have hk0 : 0 < k := lt_of_lt_of_le one_pos hk
      have hlen1 : ¬ (f * k < 1/10000) := by
        push_neg
        calc (1:ℚ)/10000 ≤ f := hf
        _ = f * 1 := (mul_one f).symm
        _ ≤ f * k := by exact mul_le_mul_of_nonneg_left hk (le_of_lt hf0)
      have hlen2 : ¬ ((1:ℚ) * k < 1/10000) := by
        push_neg
        calc (1:ℚ)/10000 ≤ 1 := by norm_num
        _ = 1 * 1 := by norm_num
        _ ≤ 1 * k := by exact mul_le_mul_of_nonneg_left hk zero_le_one
      rw [if_neg hlen1, if_neg hlen2]
      have hx : ((((a.x:ℚ)*f + (b.x:ℚ)*f)/2 +
            (-(((b.y:ℚ)*f - (a.y:ℚ)*f)/(f*k))) * (f/4)) / f)
          = ((((a.x:ℚ)*1 + (b.x:ℚ)*1)/2 +
            (-(((b.y:ℚ)*1 - (a.y:ℚ)*1)/(1*k))) * (1/4)) / 1) := by
        field_simp
        ring
      have hy : ((((a.y:ℚ)*f + (b.y:ℚ)*f)/2 +
            ((((b.x:ℚ)*f - (a.x:ℚ)*f)/(f*k))) * (f/4)) / f)
          = ((((a.y:ℚ)*1 + (b.y:ℚ)*1)/2 +
            ((((b.x:ℚ)*1 - (a.x:ℚ)*1)/(1*k))) * (1/4)) / 1) := by
        field_simp
        ring
      rw [hx, hy]

theorem loopHasSolidOnRight_scale (l : List IntPoint) (g : Grid) (c : Int) (s : ℚ)
    (h : 1/10000 ≤ (c : ℚ) * s) :
    loopHasSolidOnRight l g c s = loopHasSolidOnRight l g 1 1 := by
  unfold loopHasSolidOnRight
  rw [solidOnRightAux_scale g _ h, solidOnRightAux_scale g (((1:Int):ℚ) * 1) (by norm_num)]

/-- C10 counterexample: the winding decision is NOT the same for all
strictly positive cell sizes and scales — at product 1/100000 the probe's
degenerate-length guard rejects every edge and the test falls back to
false, flipping the decision made at product 1. -/
theorem C10_counterexample :
    ¬ (∀ (l : List IntPoint) (g : Grid) (c₁ c₂ : Int) (s₁ s₂ : ℚ),
        0 < c₁ → 0 < c₂ → 0 < s₁ → 0 < s₂ →
        loopHasSolidOnRight l g c₁ s₁ = loopHasSolidOnRight l g c₂ s₂) := by
  intro h
  have hc := h [⟨0, 0⟩, ⟨1, 0⟩, ⟨1, 1⟩, ⟨0, 1⟩] gOne 1 1 1 (1/100000)
    (by norm_num) (by norm_num) (by norm_num) (by norm_num)
  exact absurd hc (by norm_num [loopHasSolidOnRight, solidOnRightAux, wrapPairs, intSqrtQ,
    natSqrtLin, isSolid, gOne, List.rotate])

/-- C10 amended: for every loop and grid, the winding decision is the same
for all cell sizes and scales whose product is at least the probe's
degenerate-length threshold 1/10000 (the scale factors cancel exactly in
the probe arithmetic above that threshold), and consequently whole
extractions at such parameters coincide. -/
theorem C10_winding_scale_independent (g : Grid) (l : List IntPoint) (c₁ c₂ : Int) (s₁ s₂ : ℚ)
    (h₁ : 1/10000 ≤ (c₁ : ℚ) * s₁) (h₂ : 1/10000 ≤ (c₂ : ℚ) * s₂) :
    loopHasSolidOnRight l g c₁ s₁ = loopHasSolidOnRight l g c₂ s₂ ∧
      extractLoops g c₁ s₁ = extractLoops g c₂ s₂ := by
  constructor
  · rw [loopHasSolidOnRight_scale l g c₁ s₁ h₁, loopHasSolidOnRight_scale l g c₂ s₂ h₂]
  · unfold extractLoops correctLoop
    apply List.map_congr_left
    intro p _
    rw [loopHasSolidOnRight_scale p g c₁ s₁ h₁, loopHasSolidOnRight_scale p g c₂ s₂ h₂]

/-- C10 witness: concrete distinct parameter pairs above the threshold give
identical results. -/
theorem C10_witness :
    (1/10000 ≤ ((16 : Int) : ℚ) * 4 ∧ 1/10000 ≤ ((1 : Int) : ℚ) * 1) ∧
      loopHasSolidOnRight [⟨0, 0⟩, ⟨1, 0⟩, ⟨1, 1⟩, ⟨0, 1⟩] gOne 16 4 =
        loopHasSolidOnRight [⟨0, 0⟩, ⟨1, 0⟩, ⟨1, 1⟩, ⟨0, 1⟩] gOne 1 1 ∧
      extractLoops gOne 16 4 = extractLoops gOne 1 1 :=
  ⟨⟨by norm_num, by norm_num⟩,
    (C10_winding_scale_independent gOne [⟨0, 0⟩, ⟨1, 0⟩, ⟨1, 1⟩, ⟨0, 1⟩] 16 1 4 1
      (by norm_num) (by norm_num)).1,
    (C10_winding_scale_independent gOne [⟨0, 0⟩, ⟨1, 0⟩, ⟨1, 1⟩, ⟨0, 1⟩] 16 1 4 1
      (by norm_num) (by norm_num)).2⟩

/-! ### Closed-loop claim on emitted loops: counterexample and probes (C6, C3) -/

instance (p q : IntPoint) : Decidable (unitStep p q) := by
  unfold unitStep; infer_instance

/-- 4x4 grid with a 2x2 solid block at (1,1). -/
def gBlock22 : Grid :=
  ⟨4, 4, fun x y => decide (1 ≤ x) && decide (x ≤ 2) && decide (1 ≤ y) && decide (y ≤ 2)⟩

theorem extract_gBlock22 : extractLoops gBlock22 1 1 =
    [[⟨1, 1⟩, ⟨3, 1⟩, ⟨3, 3⟩, ⟨1, 3⟩, ⟨1, 2⟩]] := by
  have h1 : keptPolys gBlock22 =
      [[⟨1, 1⟩, ⟨2, 1⟩, ⟨3, 1⟩, ⟨3, 2⟩, ⟨3, 3⟩, ⟨2, 3⟩, ⟨1, 3⟩, ⟨1, 2⟩]] := by decide
  unfold extractLoops
  rw [h1]
  norm_num [correctLoop, loopHasSolidOnRight, solidOnRightAux, wrapPairs, List.rotate,
    intSqrtQ, natSqrtLin, isSolid, gBlock22, reduceLoop, reduceRun, dirQ]

/-- C6 counterexample: emitted (reduced) loops do not have unit-distance
consecutive points — a 2x2 solid block yields a 5-point loop whose first
two points are two grid units apart. -/
theorem C6_counterexample :
    ¬ (∀ (g : Grid) (c : Int) (s : ℚ), ∀ l ∈ extractLoops g c s, 3 ≤ l.length →
        ∀ pr ∈ wrapPairs l, unitStep pr.1 pr.2) := by
  intro h
  have hm : [⟨1, 1⟩, ⟨3, 1⟩, ⟨3, 3⟩, ⟨1, 3⟩, ⟨1, 2⟩] ∈ extractLoops gBlock22 1 1 := by
    rw [extract_gBlock22]
    exact List.mem_singleton.2 rfl
  have hu := h gBlock22 1 1 _ hm (by norm_num) (⟨1, 1⟩, ⟨3, 1⟩) (by decide)
  exact absurd hu (by decide)

/-- The grid cell in which a probe a quarter cell to the right of the
directed edge midpoint lands, in grid units (the scale-free form of the
winding probe). -/
def probeCell (p q : IntPoint) : Int × Int :=
  let len := intSqrtQ ((q.x - p.x) * (q.x - p.x) + (q.y - p.y) * (q.y - p.y))
  (⌊((p.x : ℚ) + (q.x : ℚ)) / 2 + (-(((q.y - p.y : Int) : ℚ) / len)) / 4⌋,
   ⌊((p.y : ℚ) + (q.y : ℚ)) / 2 + (((q.x - p.x : Int) : ℚ) / len) / 4⌋)

/-- 6x5 grid: an L-shaped region {(1,1),(1,2),(2,2)} plus the cell (3,1)
touching it diagonally at the corner (3,2). -/
def gDiag : Grid := ⟨6, 5, fun x y =>
  (decide (x = 1) && decide (y = 1)) || (decide (x = 3) && decide (y = 1)) ||
  (decide (x = 1) && decide (y = 2)) || (decide (x = 2) && decide (y = 2))⟩

theorem extract_gDiag : extractLoops gDiag 1 1 =
    [[⟨1, 1⟩, ⟨2, 1⟩, ⟨2, 2⟩, ⟨4, 2⟩, ⟨4, 1⟩, ⟨3, 1⟩, ⟨3, 3⟩, ⟨1, 3⟩, ⟨1, 2⟩]] := by
  have h1 : keptPolys gDiag =
      [[⟨1, 1⟩, ⟨2, 1⟩, ⟨2, 2⟩, ⟨3, 2⟩, ⟨4, 2⟩, ⟨4, 1⟩, ⟨3, 1⟩, ⟨3, 2⟩, ⟨3, 3⟩, ⟨2, 3⟩,
        ⟨1, 3⟩, ⟨1, 2⟩]] := by decide
  unfold extractLoops
  rw [h1]
  norm_num [correctLoop, loopHasSolidOnRight, solidOnRightAux, wrapPairs, List.rotate,
    intSqrtQ, natSqrtLin, isSolid, gDiag, reduceLoop, reduceRun, dirQ]

/-- C3 counterexample: at a corner where two solid regions touch
diagonally, the walker can switch regions, producing an emitted loop with
an edge whose right-side probe is non-solid even after winding correction:
edge ((2,2),(4,2)) of the emitted loop of gDiag probes cell (3,2), which is
empty. -/
theorem C3_counterexample :
    ¬ (∀ (g : Grid) (c : Int) (s : ℚ), ∀ l ∈ extractLoops g c s, ∀ pr ∈ wrapPairs l,
        isSolid g (probeCell pr.1 pr.2).1 (probeCell pr.1 pr.2).2 = true ∧
        isSolid g (probeCell pr.2 pr.1).1 (probeCell pr.2 pr.1).2 = false) := by
  intro h
  have hm : [⟨1, 1⟩, ⟨2, 1⟩, ⟨2, 2⟩, ⟨4, 2⟩, ⟨4, 1⟩, ⟨3, 1⟩, ⟨3, 3⟩, ⟨1, 3⟩, ⟨1, 2⟩] ∈
      extractLoops gDiag 1 1 := by
    rw [extract_gDiag]
    exact List.mem_singleton.2 rfl
  have hu := (h gDiag 1 1 _ hm (⟨2, 2⟩, ⟨4, 2⟩) (by decide)).1
  revert hu
  norm_num [probeCell, intSqrtQ, natSqrtLin, isSolid, gDiag]

/-! ### Walker infrastructure: adjacency, candidate search, degrees -/

theorem mem_adjOf {es : List Edge} {v z : IntPoint} :
    z ∈ adjOf es v ↔ ∃ e ∈ es, (e.a = v ∧ e.b = z) ∨ (e.b = v ∧ e.a = z) := by
  unfold adjOf
  rw [foldl_mem _ (fun e z => (e.a = v ∧ e.b = z) ∨ (e.b = v ∧ e.a = z))
    (fun acc e x => by
      simp only [List.mem_append]
      split_ifs with h1 h2 h2 <;> simp_all <;> tauto)]
  simp

theorem findNext_some {es : List Edge} {prev cur z : IntPoint} :
    ∀ {nbs : List IntPoint}, findNext es prev cur nbs = some z →
      z ∈ nbs ∧ z ≠ prev ∧ mkEdge cur z ∈ es := by
  intro nbs
  induction nbs with
  | nil => intro h; cases h
  | cons c cs ih =>
    intro h
    rw [findNext] at h
    split_ifs at h with h1 h2
    · obtain ⟨hm, hz, he⟩ := ih h
      exact ⟨List.mem_cons_of_mem _ hm, hz, he⟩
    · cases h
      exact ⟨List.mem_cons_self _ _, h1, h2⟩
    · obtain ⟨hm, hz, he⟩ := ih h
      exact ⟨List.mem_cons_of_mem _ hm, hz, he⟩

theorem findNext_none {es : List Edge} {prev cur : IntPoint} :
    ∀ {nbs : List IntPoint}, findNext es prev cur nbs = none →
      ∀ z ∈ nbs, z = prev ∨ mkEdge cur z ∉ es := by
  intro nbs
  induction nbs with
  | nil => intro _ z hz; cases hz
  | cons c cs ih =>
    intro h z hz
    by_cases h1 : c = prev
    · rw [findNext, if_pos h1] at h
      rcases List.mem_cons.1 hz with rfl | hz2
      · exact Or.inl h1
      · exact ih h z hz2
    · by_cases h2 : mkEdge cur c ∈ es
      · rw [findNext, if_neg h1, if_pos h2] at h
        exact absurd h (by simp)
      · rw [findNext, if_neg h1, if_neg h2] at h
        rcases List.mem_cons.1 hz with rfl | hz2
        · exact Or.inr h2
        · exact ih h z hz2

theorem mkEdge_idem (p q : IntPoint) :
    mkEdge (mkEdge p q).a (mkEdge p q).b = mkEdge p q := by
  rcases mkEdge_pair p q with ⟨ha, hb⟩ | ⟨ha, hb⟩ <;> rw [ha, hb]
  exact mkEdge_comm q p

theorem collect_canonicalE {g : Grid} {e : Edge} (h : e ∈ collectEdges g) :
    mkEdge e.a e.b = e := by
  obtain ⟨x, y, hgen⟩ := mem_collectEdges.1 h
  obtain ⟨p, q, rfl, -⟩ := genAt_shape hgen
  exact mkEdge_idem p q

theorem collect_ends_ne {g : Grid} {e : Edge} (h : e ∈ collectEdges g) : e.a ≠ e.b := by
  have hu := collect_unit h
  intro hc
  unfold unitStep at hu
  rw [hc] at hu
  omega

/-- Edge incidence count of a corner point in an edge list. -/
def degreeIn (es : List Edge) (v : IntPoint) : Nat :=
  es.countP (fun e => decide (e.a = v) || decide (e.b = v))

theorem degreeIn_pos {es : List Edge} {v : IntPoint} (h : 0 < degreeIn es v) :
    ∃ e ∈ es, e.a = v ∨ e.b = v := by
  obtain ⟨e, he, hp⟩ := List.countP_pos_iff.1 h
  refine ⟨e, he, ?_⟩
  simpa using hp

theorem degreeIn_erase {es : List Edge} {v : IntPoint} {e : Edge} (he : e ∈ es) :
    degreeIn es v = degreeIn (es.erase e) v + (if e.a = v ∨ e.b = v then 1 else 0) := by
  have hperm := List.perm_cons_erase he
  unfold degreeIn
  rw [hperm.countP_eq, List.countP_cons]
  by_cases h : e.a = v ∨ e.b = v
  · simp [h]
  · simp only [not_or] at h
    simp [h.1, h.2]

theorem Edge.extAB {e f : Edge} (h1 : e.a = f.a) (h2 : e.b = f.b) : e = f := by
  cases e; cases f; simp_all

theorem mkEdge_vert (x y : Int) : mkEdge ⟨x, y⟩ ⟨x, y + 1⟩ = ⟨⟨x, y⟩, ⟨x, y + 1⟩⟩ := by
  unfold mkEdge
  dsimp only
  rw [if_neg (by omega)]

theorem mkEdge_horiz (x y : Int) : mkEdge ⟨x, y⟩ ⟨x + 1, y⟩ = ⟨⟨x, y⟩, ⟨x + 1, y⟩⟩ := by
  unfold mkEdge
  dsimp only
  rw [if_neg (by omega)]

/-- A vertical unit edge is collected exactly when its two flanking cells
disagree on solidity. -/
theorem vert_mem (g : Grid) (x y : Int) :
    ((⟨⟨x, y⟩, ⟨x, y + 1⟩⟩ : Edge) ∈ collectEdges g) ↔
      ¬(isSolid g x y = isSolid g (x - 1) y) := by
  rw [mem_collectEdges]
  constructor
  · rintro ⟨x', y', hs, ⟨hn, he⟩ | ⟨hn, he⟩ | ⟨hn, he⟩ | ⟨hn, he⟩⟩
    · rw [mkEdge_horiz] at he
      simp only [Edge.mk.injEq, IntPoint.mk.injEq] at he
      omega
    · rw [show (⟨x', y' + 1⟩ : IntPoint) = ⟨x', y' + 1⟩ from rfl,
        show mkEdge ⟨x', y' + 1⟩ ⟨x' + 1, y' + 1⟩ = ⟨⟨x', y' + 1⟩, ⟨x' + 1, y' + 1⟩⟩ from
          mkEdge_horiz x' (y' + 1)] at he
      simp only [Edge.mk.injEq, IntPoint.mk.injEq] at he
      omega
    · rw [mkEdge_vert] at he
      simp only [Edge.mk.injEq, IntPoint.mk.injEq] at he
      obtain ⟨⟨hx1, hy1⟩, -⟩ := he
      subst hx1
      subst hy1
      rw [hs, hn]
      simp
    · rw [show mkEdge ⟨x' + 1, y'⟩ ⟨x' + 1, y' + 1⟩ = ⟨⟨x' + 1, y'⟩, ⟨x' + 1, y' + 1⟩⟩ from
        mkEdge_vert (x' + 1) y'] at he
      simp only [Edge.mk.injEq, IntPoint.mk.injEq] at he
      obtain ⟨⟨hx1, hy1⟩, -⟩ := he
      have hx' : x' = x - 1 := by omega
      subst hx'
      subst hy1
      rw [show x - 1 + 1 = x by omega] at hn
      rw [hn, hs]
      simp
  · intro hne
    by_cases h4 : isSolid g x y = true
    · have h3 : isSolid g (x - 1) y = false := by
        cases hxy : isSolid g (x - 1) y
        · rfl
        · rw [h4, hxy] at hne
          exact absurd rfl hne
      exact ⟨x, y, h4, Or.inr (Or.inr (Or.inl ⟨h3, (mkEdge_vert x y).symm⟩))⟩
    · have h4f : isSolid g x y = false := by
        cases hxy : isSolid g x y
        · rfl
        · exact absurd hxy h4
      have h3 : isSolid g (x - 1) y = true := by
        cases hxy : isSolid g (x - 1) y
        · rw [h4f, hxy] at hne
          exact absurd rfl hne
        · rfl
      refine ⟨x - 1, y, h3, Or.inr (Or.inr (Or.inr ⟨by rw [show x - 1 + 1 = x by omega]; exact h4f, ?_⟩))⟩
      rw [show x - 1 + 1 = x by omega]
      exact (mkEdge_vert x y).symm

/-- A horizontal unit edge is collected exactly when its two flanking cells
disagree on solidity. -/
theorem horiz_mem (g : Grid) (x y : Int) :
    ((⟨⟨x, y⟩, ⟨x + 1, y⟩⟩ : Edge) ∈ collectEdges g) ↔
      ¬(isSolid g x y = isSolid g x (y - 1)) := by
  rw [mem_collectEdges]
  constructor
  · rintro ⟨x', y', hs, ⟨hn, he⟩ | ⟨hn, he⟩ | ⟨hn, he⟩ | ⟨hn, he⟩⟩
    · rw [mkEdge_horiz] at he
      simp only [Edge.mk.injEq, IntPoint.mk.injEq] at he
      obtain ⟨⟨hx1, hy1⟩, -⟩ := he
      subst hx1
      subst hy1
      rw [hs, hn]
      simp
    · rw [show mkEdge ⟨x', y' + 1⟩ ⟨x' + 1, y' + 1⟩ = ⟨⟨x', y' + 1⟩, ⟨x' + 1, y' + 1⟩⟩ from
        mkEdge_horiz x' (y' + 1)] at he
      simp only [Edge.mk.injEq, IntPoint.mk.injEq] at he
      obtain ⟨⟨hx1, hy1⟩, -⟩ := he
      have hy' : y' = y - 1 := by omega
      subst hx1
      subst hy'
      rw [show y - 1 + 1 = y by omega] at hn
      rw [hn, hs]
      simp
    · rw [mkEdge_vert] at he
      simp only [Edge.mk.injEq, IntPoint.mk.injEq] at he
      omega
    · rw [show mkEdge ⟨x' + 1, y'⟩ ⟨x' + 1, y' + 1⟩ = ⟨⟨x' + 1, y'⟩, ⟨x' + 1, y' + 1⟩⟩ from
        mkEdge_vert (x' + 1) y'] at he
      simp only [Edge.mk.injEq, IntPoint.mk.injEq] at he
      omega
  · intro hne
    by_cases h4 : isSolid g x y = true
    · have h3 : isSolid g x (y - 1) = false := by
        cases hxy : isSolid g x (y - 1)
        · rfl
        · rw [h4, hxy] at hne
          exact absurd rfl hne
      exact ⟨x, y, h4, Or.inl ⟨h3, (mkEdge_horiz x y).symm⟩⟩
    · have h4f : isSolid g x y = false := by
        cases hxy : isSolid g x y
        · rfl
        · exact absurd hxy h4
      have h3 : isSolid g x (y - 1) = true := by
        cases hxy : isSolid g x (y - 1)
        · rw [h4f, hxy] at hne
          exact absurd rfl hne
        · rfl
      refine ⟨x, y - 1, h3, Or.inr (Or.inl ⟨by rw [show y - 1 + 1 = y by omega]; exact h4f, ?_⟩)⟩
      rw [show y - 1 + 1 = y by omega]
      exact (mkEdge_horiz x y).symm

/-- The four possible collected edges incident to a corner point. -/
def edgesAt (v : IntPoint) : List Edge :=
  [⟨⟨v.x, v.y - 1⟩, ⟨v.x, v.y⟩⟩, ⟨⟨v.x, v.y⟩, ⟨v.x, v.y + 1⟩⟩,
   ⟨⟨v.x - 1, v.y⟩, ⟨v.x, v.y⟩⟩, ⟨⟨v.x, v.y⟩, ⟨v.x + 1, v.y⟩⟩]

theorem collect_incident_mem {g : Grid} {v : IntPoint} {e : Edge}
    (he : e ∈ collectEdges g) (hv : e.a = v ∨ e.b = v) : e ∈ edgesAt v := by
  have hu := collect_unit he
  have hl := collect_canonical he
  unfold unitStep at hu
  unfold lexLE at hl
  unfold edgesAt
  rcases hv with hv | hv <;> subst hv
  · rcases hu with ⟨hx, hy⟩ | ⟨hy, hx⟩
    · have hb : e.b = (⟨e.a.x, e.a.y + 1⟩ : IntPoint) :=
        IntPoint.ext2 (show e.b.x = e.a.x by omega) (show e.b.y = e.a.y + 1 by omega)
      have h : e = ⟨⟨e.a.x, e.a.y⟩, ⟨e.a.x, e.a.y + 1⟩⟩ := Edge.extAB rfl hb
      rw [h]
      simp
    · have hb : e.b = (⟨e.a.x + 1, e.a.y⟩ : IntPoint) :=
        IntPoint.ext2 (show e.b.x = e.a.x + 1 by omega) (show e.b.y = e.a.y by omega)
      have h : e = ⟨⟨e.a.x, e.a.y⟩, ⟨e.a.x + 1, e.a.y⟩⟩ := Edge.extAB rfl hb
      rw [h]
      simp
  · rcases hu with ⟨hx, hy⟩ | ⟨hy, hx⟩
    · have ha : e.a = (⟨e.b.x, e.b.y - 1⟩ : IntPoint) :=
        IntPoint.ext2 (show e.a.x = e.b.x by omega) (show e.a.y = e.b.y - 1 by omega)
      have h : e = ⟨⟨e.b.x, e.b.y - 1⟩, ⟨e.b.x, e.b.y⟩⟩ := Edge.extAB ha rfl
      rw [h]
      simp
    · have ha : e.a = (⟨e.b.x - 1, e.b.y⟩ : IntPoint) :=
        IntPoint.ext2 (show e.a.x = e.b.x - 1 by omega) (show e.a.y = e.b.y by omega)
      have h : e = ⟨⟨e.b.x - 1, e.b.y⟩, ⟨e.b.x, e.b.y⟩⟩ := Edge.extAB ha rfl
      rw [h]
      simp

theorem edgesAt_incident {v : IntPoint} {e : Edge} (h : e ∈ edgesAt v) :
    e.a = v ∨ e.b = v := by
  simp only [edgesAt, List.mem_cons, List.not_mem_nil, or_false] at h
  rcases h with rfl | rfl | rfl | rfl
  · exact Or.inr rfl
  · exact Or.inl rfl
  · exact Or.inr rfl
  · exact Or.inl rfl

theorem edgesAt_nodup (v : IntPoint) : (edgesAt v).Nodup := by
  simp only [edgesAt]
  refine List.nodup_cons.2 ⟨?_, List.nodup_cons.2 ⟨?_, List.nodup_cons.2 ⟨?_, List.nodup_singleton _⟩⟩⟩ <;>
    simp only [List.mem_cons, List.mem_singleton, List.not_mem_nil, or_false,
      Edge.mk.injEq, IntPoint.mk.injEq] <;> omega

/-- Every corner point has an even number of incident collected edges. -/
theorem degree_collect_even (g : Grid) (v : IntPoint) :
    degreeIn (collectEdges g) v % 2 = 0 := by
  have hperm : ((collectEdges g).filter (fun e => decide (e.a = v) || decide (e.b = v))).Perm
      ((edgesAt v).filter (fun e => decide (e ∈ collectEdges g))) := by
    rw [List.perm_ext_iff_of_nodup ((collectEdges_nodup g).filter _) ((edgesAt_nodup v).filter _)]
    intro e
    simp only [List.mem_filter, Bool.or_eq_true, decide_eq_true_eq]
    constructor
    · rintro ⟨hm, hv⟩
      exact ⟨collect_incident_mem hm hv, hm⟩
    · rintro ⟨hv, hm⟩
      exact ⟨hm, edgesAt_incident hv⟩
  unfold degreeIn
  rw [List.countP_eq_length_filter, hperm.length_eq]
  have hN : ((⟨⟨v.x, v.y - 1⟩, ⟨v.x, v.y⟩⟩ : Edge) ∈ collectEdges g) ↔
      ¬(isSolid g v.x (v.y - 1) = isSolid g (v.x - 1) (v.y - 1)) := by
    have := vert_mem g v.x (v.y - 1)
    rw [show (⟨⟨v.x, v.y - 1⟩, ⟨v.x, v.y - 1 + 1⟩⟩ : Edge) = ⟨⟨v.x, v.y - 1⟩, ⟨v.x, v.y⟩⟩ from
      Edge.extAB rfl (IntPoint.ext2 rfl (show v.y - 1 + 1 = v.y by omega))] at this
    exact this
  have hS : ((⟨⟨v.x, v.y⟩, ⟨v.x, v.y + 1⟩⟩ : Edge) ∈ collectEdges g) ↔
      ¬(isSolid g v.x v.y = isSolid g (v.x - 1) v.y) := vert_mem g v.x v.y
  have hW : ((⟨⟨v.x - 1, v.y⟩, ⟨v.x, v.y⟩⟩ : Edge) ∈ collectEdges g) ↔
      ¬(isSolid g (v.x - 1) v.y = isSolid g (v.x - 1) (v.y - 1)) := by
    have := horiz_mem g (v.x - 1) v.y
    rw [show (⟨⟨v.x - 1, v.y⟩, ⟨v.x - 1 + 1, v.y⟩⟩ : Edge) = ⟨⟨v.x - 1, v.y⟩, ⟨v.x, v.y⟩⟩ from
      Edge.extAB rfl (IntPoint.ext2 (show v.x - 1 + 1 = v.x by omega) rfl)] at this
    exact this
  have hE : ((⟨⟨v.x, v.y⟩, ⟨v.x + 1, v.y⟩⟩ : Edge) ∈ collectEdges g) ↔
      ¬(isSolid g v.x v.y = isSolid g v.x (v.y - 1)) := horiz_mem g v.x v.y
  simp only [edgesAt, List.filter_cons, List.filter_nil, decide_eq_true_eq]
  cases h1 : isSolid g (v.x - 1) (v.y - 1) <;> cases h2 : isSolid g v.x (v.y - 1) <;>
    cases h3 : isSolid g (v.x - 1) v.y <;> cases h4 : isSolid g v.x v.y <;>
    simp_all

/-- Consumed edges of a walk: one canonical edge per step of the path. -/
def pathEdges : IntPoint → List IntPoint → List Edge
  | _, [] => []
  | c, n :: rest => mkEdge c n :: pathEdges n rest

theorem parity_step {g : Grid} {es : List Edge} {cur nxt start : IntPoint}
    (hsub : es.Sublist (collectEdges g)) (he : mkEdge cur nxt ∈ es)
    (hcs : cur ≠ start)
    (hpar : ∀ v, degreeIn es v % 2 = 1 ↔ (cur ≠ start ∧ (v = cur ∨ v = start))) :
    ∀ v, degreeIn (es.erase (mkEdge cur nxt)) v % 2 = 1 ↔
      (nxt ≠ start ∧ (v = nxt ∨ v = start)) := by
  have hcol : mkEdge cur nxt ∈ collectEdges g := hsub.subset he
  have hends := collect_ends_ne hcol
  have hab := mkEdge_pair cur nxt
  have hcn : cur ≠ nxt := by
    rcases hab with ⟨h1, h2⟩ | ⟨h1, h2⟩ <;> rw [h1, h2] at hends
    · exact hends
    · exact fun hc => hends hc.symm
  intro v
  have hstep := @degreeIn_erase _ v _ he
  have hinc : ((mkEdge cur nxt).a = v ∨ (mkEdge cur nxt).b = v) ↔ (v = cur ∨ v = nxt) := by
    rcases hab with ⟨h1, h2⟩ | ⟨h1, h2⟩ <;> rw [h1, h2] <;>
      constructor <;> rintro (rfl | rfl) <;> simp
  by_cases hic : v = cur ∨ v = nxt
  · rw [if_pos (hinc.2 hic)] at hstep
    rcases hic with rfl | rfl
    · have hold : degreeIn es v % 2 = 1 := (hpar v).2 ⟨hcs, Or.inl rfl⟩
      constructor
      · intro hnew
        omega
      · rintro ⟨hns, hcur | hstt⟩
        · exact absurd hcur hcn
        · exact absurd hstt hcs
    · have hold := hpar v
      constructor
      · intro hnew
        refine ⟨?_, Or.inl rfl⟩
        intro hnsA
        have h1 : degreeIn es v % 2 = 1 := hold.2 ⟨hcs, Or.inr hnsA⟩
        omega
      · rintro ⟨hns, -⟩
        have h1 : ¬ (degreeIn es v % 2 = 1) := by
          intro hc
          rcases (hold.1 hc).2 with h | h
          · exact hcn h.symm
          · exact hns h
        omega
  · rw [if_neg (fun hc => hic (hinc.1 hc))] at hstep
    push_neg at hic
    obtain ⟨hvc, hvn⟩ := hic
    constructor
    · intro hnew
      have holdv : degreeIn es v % 2 = 1 := by omega
      obtain ⟨-, hcase⟩ := (hpar v).1 holdv
      rcases hcase with h | h
      · exact absurd h hvc
      · refine ⟨fun hc => hvn (h.trans hc.symm), Or.inr h⟩
    · rintro ⟨hns, h | h⟩
      · exact absurd h hvn
      · have hold : degreeIn es v % 2 = 1 := (hpar v).2 ⟨hcs, Or.inr h⟩
        omega

/-- Full specification of one walk of the inner loop: starting midway
through a walk (previous edge already consumed), the walk returns to
`start`, consumes a duplicate-free set of path edges drawn from the live
edge set, and leaves an all-even-degree edge set.  Requires the live set to
obey the walk parity invariant and the fuel/cap bound. -/
theorem walkInner_spec (g : Grid) (start : IntPoint) :
    ∀ (fuel : Nat) (es : List Edge) (prev cur : IntPoint) (poly : List IntPoint),
      es.length < fuel →
      es.Sublist (collectEdges g) →
      mkEdge cur prev ∉ es →
      (∀ v, degreeIn es v % 2 = 1 ↔ (cur ≠ start ∧ (v = cur ∨ v = start))) →
      poly.length + es.length ≤ 100001 →
      ∃ ext es2,
        walkInner (adjOf (collectEdges g)) start fuel es prev cur poly = (poly ++ ext, es2) ∧
        es2.Sublist es ∧
        (∀ e, e ∈ es2 ↔ e ∈ es ∧ e ∉ pathEdges cur ext) ∧
        (∀ e ∈ pathEdges cur ext, e ∈ es) ∧
        (pathEdges cur ext).Nodup ∧
        (cur :: ext).getLast? = some start ∧
        (∀ v, degreeIn es2 v % 2 = 0) := by
  intro fuel
  induction fuel with
  | zero =>
    intro es prev cur poly hfuel
    omega
  | succ fuel ih =>
    intro es prev cur poly hfuel hsub hprev hpar hcap
    have hnodup : es.Nodup := hsub.nodup (collectEdges_nodup g)
    rw [walkInner]
    by_cases hcs : cur = start
    · subst hcs
      refine ⟨[], es, by rw [if_pos rfl]; simp, List.Sublist.refl es, ?_, ?_, ?_, rfl, ?_⟩
      · intro e
        simp [pathEdges]
      · intro e he
        simp [pathEdges] at he
      · simp [pathEdges]
      · intro v
        have h2 : ¬ (degreeIn es v % 2 = 1) := fun hc => ((hpar v).1 hc).1 rfl
        omega
    · rw [if_neg hcs]
      cases hfn : findNext es prev cur (adjOf (collectEdges g) cur) with
      | none =>
        exfalso
        have hodd : degreeIn es cur % 2 = 1 := (hpar cur).2 ⟨hcs, Or.inl rfl⟩
        have hpos : 0 < degreeIn es cur := by omega
        obtain ⟨e, hees, hinc⟩ := degreeIn_pos hpos
        have hecol : e ∈ collectEdges g := hsub.subset hees
        rcases hinc with ha | hb
        · have hz : mkEdge cur e.b = e := by
            rw [← ha]
            exact collect_canonicalE hecol
          have hzadj : e.b ∈ adjOf (collectEdges g) cur :=
            mem_adjOf.2 ⟨e, hecol, Or.inl ⟨ha, rfl⟩⟩
          rcases findNext_none hfn e.b hzadj with hzp | hne
          · rw [hzp] at hz
            exact hprev (by rw [hz]; exact hees)
          · exact hne (by rw [hz]; exact hees)
        · have hz : mkEdge cur e.a = e := by
            rw [← hb, mkEdge_comm]
            exact collect_canonicalE hecol
          have hzadj : e.a ∈ adjOf (collectEdges g) cur :=
            mem_adjOf.2 ⟨e, hecol, Or.inr ⟨hb, rfl⟩⟩
          rcases findNext_none hfn e.a hzadj with hzp | hne
          · rw [hzp] at hz
            exact hprev (by rw [hz]; exact hees)
          · exact hne (by rw [hz]; exact hees)
      | some nxt =>
        obtain ⟨hnadj, hnp, hne⟩ := findNext_some hfn
        have hlen1 : 0 < es.length := List.length_pos.2 (List.ne_nil_of_mem hne)
        have hlen2 : (es.erase (mkEdge cur nxt)).length = es.length - 1 :=
          List.length_erase_of_mem hne
        have hpar2 := parity_step hsub hne hcs hpar
        have hsub2 : (es.erase (mkEdge cur nxt)).Sublist es := List.erase_sublist _ _
        have hmem2 : ∀ e, e ∈ es.erase (mkEdge cur nxt) ↔ e ≠ mkEdge cur nxt ∧ e ∈ es :=
          fun e => hnodup.mem_erase_iff
        simp only [hfn]
        by_cases hcapq : 100000 < (poly ++ [nxt]).length
        · rw [if_pos hcapq]
          have hply : (poly ++ [nxt]).length = poly.length + 1 := by simp
          have hes1 : es.length = 1 := by omega
          have hes2nil : es.erase (mkEdge cur nxt) = [] := by
            have := hlen2
            rw [hes1] at this
            exact List.length_eq_zero.1 this
          have hnxs : nxt = start := by
            by_contra hns
            have := (hpar2 start).2 ⟨hns, Or.inr rfl⟩
            rw [hes2nil] at this
            simp [degreeIn] at this
          refine ⟨[nxt], es.erase (mkEdge cur nxt), rfl, hsub2, ?_, ?_, ?_, ?_, ?_⟩
          · intro e
            rw [hmem2 e]
            simp only [pathEdges, List.mem_singleton, List.not_mem_nil]
            constructor
            · rintro ⟨hne2, hme⟩
              exact ⟨hme, by simp [hne2]⟩
            · rintro ⟨hme, hnm⟩
              refine ⟨?_, hme⟩
              intro hc
              exact hnm (by simp [hc])
          · intro e he2
            simp only [pathEdges, List.mem_singleton, List.not_mem_nil] at he2
            rw [he2]
            exact hne
          · simp [pathEdges]
          · simp [hnxs]
          · intro v
            rw [hes2nil]
            simp [degreeIn]
        · rw [if_neg hcapq]
          have hprev2 : mkEdge nxt cur ∉ es.erase (mkEdge cur nxt) := by
            rw [mkEdge_comm]
            exact hnodup.not_mem_erase
          obtain ⟨ext2, es3, heq3, hsub3, hmem3, hpsub3, hnd3, hlast3, heven3⟩ :=
            ih (es.erase (mkEdge cur nxt)) cur nxt (poly ++ [nxt]) (by omega)
              (hsub2.trans hsub) hprev2 hpar2 (by simp; omega)
          refine ⟨nxt :: ext2, es3, ?_, hsub3.trans hsub2, ?_, ?_, ?_, ?_, heven3⟩
          · rw [heq3, ← List.append_cons]
          · intro e
            rw [hmem3 e, hmem2 e]
            simp only [pathEdges, List.mem_cons]
            constructor
            · rintro ⟨⟨hne2, hme⟩, hnm⟩
              exact ⟨hme, by rintro (hc | hc); exact hne2 hc; exact hnm hc⟩
            · rintro ⟨hme, hnm⟩
              exact ⟨⟨fun hc => hnm (Or.inl hc), hme⟩, fun hc => hnm (Or.inr hc)⟩
          · intro e he2
            simp only [pathEdges, List.mem_cons] at he2
            rcases he2 with rfl | he2
            · exact hne
            · exact hsub2.subset (hpsub3 e he2)
          · simp only [pathEdges, List.nodup_cons]
            refine ⟨?_, hnd3⟩
            intro hc
            exact hnodup.not_mem_erase (hpsub3 _ hc)
          · rw [List.getLast?_cons_cons]
            exact hlast3

/-- The implicit (wrapping) edge list of a stored loop. -/
def loopEdgesOf (l : List IntPoint) : List Edge :=
  (wrapPairs l).map (fun pr => mkEdge pr.1 pr.2)

theorem parity_first {es : List Edge} {a b : IntPoint}
    (he : mkEdge a b ∈ es) (hne : a ≠ b)
    (heven : ∀ v, degreeIn es v % 2 = 0) :
    ∀ v, degreeIn (es.erase (mkEdge a b)) v % 2 = 1 ↔ (b ≠ a ∧ (v = b ∨ v = a)) := by
  have hab := mkEdge_pair a b
  intro v
  have hstep := @degreeIn_erase _ v _ he
  have hinc : ((mkEdge a b).a = v ∨ (mkEdge a b).b = v) ↔ (v = a ∨ v = b) := by
    rcases hab with ⟨h1, h2⟩ | ⟨h1, h2⟩ <;> rw [h1, h2] <;>
      constructor <;> rintro (rfl | rfl) <;> simp
  have hev := heven v
  by_cases hic : v = a ∨ v = b
  · rw [if_pos (hinc.2 hic)] at hstep
    constructor
    · intro hnew
      rcases hic with rfl | rfl
      · exact ⟨fun hc => hne hc.symm, Or.inr rfl⟩
      · exact ⟨fun hc => hne hc.symm, Or.inl rfl⟩
    · intro _
      omega
  · rw [if_neg (fun hc => hic (hinc.1 hc))] at hstep
    push_neg at hic
    constructor
    · intro hnew
      omega
    · rintro ⟨hba, h | h⟩
      · exact absurd h hic.2
      · exact absurd h hic.1

theorem pathEdges_zip : ∀ (l : List IntPoint) (b a : IntPoint),
    ((b :: l).zip (l ++ [a])).map (fun pr => mkEdge pr.1 pr.2) = pathEdges b (l ++ [a]) := by
  intro l
  induction l with
  | nil => intro b a; rfl
  | cons c rest ih =>
    intro b a
    simp only [List.cons_append, List.zip_cons_cons, List.map_cons, pathEdges]
    rw [ih c a]
    rfl

theorem loopEdges_path : ∀ (ext2 : List IntPoint) (a b : IntPoint),
    loopEdgesOf (a :: b :: ext2) = mkEdge a b :: pathEdges b (ext2 ++ [a]) := by
  intro ext2 a b
  unfold loopEdgesOf wrapPairs
  have hrot : (a :: b :: ext2).rotate 1 = (b :: ext2) ++ [a] := by
    simp [List.rotate_cons_succ]
  rw [hrot]
  simp only [List.cons_append, List.zip_cons_cons, List.map_cons]
  rw [pathEdges_zip ext2 b a]

theorem popDup_closed (a b : IntPoint) (ext2 : List IntPoint) :
    popDup (a :: b :: (ext2 ++ [a])) = a :: b :: ext2 := by
  unfold popDup
  rw [if_pos]
  · show (a :: b :: (ext2 ++ [a])).dropLast = _
    rw [show a :: b :: (ext2 ++ [a]) = (a :: b :: ext2) ++ [a] by simp]
    rw [List.dropLast_concat]
  · constructor
    · simp
    · rw [show a :: b :: (ext2 ++ [a]) = (a :: b :: ext2) ++ [a] by simp]
      rw [List.getLast?_concat]
      rfl

theorem exists_concat_of_getLast? : ∀ {l : List IntPoint} {a : IntPoint},
    l.getLast? = some a → ∃ l2, l = l2 ++ [a] := by
  intro l
  induction l with
  | nil => intro a h; cases h
  | cons x xs ih =>
    intro a h
    cases hxs : xs with
    | nil =>
      subst hxs
      simp only [List.getLast?_singleton, Option.some.injEq] at h
      exact ⟨[], by rw [h]; rfl⟩
    | cons y ys =>
      subst hxs
      rw [List.getLast?_cons_cons] at h
      obtain ⟨l2, hl2⟩ := ih h
      exact ⟨x :: l2, by rw [List.cons_append, ← hl2]⟩

/-- Full specification of the outer drain loop: every stored polygon has at
least 3 points and a duplicate-free implicit edge list drawn from the input
set, and every input edge lies on exactly one stored polygon. -/
theorem walkOuter_spec (g : Grid) (hsize : (collectEdges g).length ≤ 100000) :
    ∀ (fuel : Nat) (es : List Edge),
      es.length ≤ fuel →
      es.Sublist (collectEdges g) →
      (∀ v, degreeIn es v % 2 = 0) →
      (∀ p ∈ walkOuter (adjOf (collectEdges g)) fuel es,
        3 ≤ p.length ∧ (loopEdgesOf p).Nodup ∧ ∀ e ∈ loopEdgesOf p, e ∈ es) ∧
      (∀ e : Edge, (walkOuter (adjOf (collectEdges g)) fuel es).countP
          (fun p => decide (e ∈ loopEdgesOf p)) = if e ∈ es then 1 else 0) := by
  intro fuel
  induction fuel with
  | zero =>
    intro es hfuel hsub heven
    have hnil : es = [] := List.length_eq_zero.1 (by omega)
    subst hnil
    rw [walkOuter]
    exact ⟨fun p hp => absurd hp (List.not_mem_nil p), fun e => by simp⟩
  | succ fuel ih =>
    intro es hfuel hsub heven
    cases es with
    | nil =>
      rw [walkOuter]
      exact ⟨fun p hp => absurd hp (List.not_mem_nil p), fun e => by simp⟩
    | cons e rest =>
      have hnodup : (e :: rest).Nodup := hsub.nodup (collectEdges_nodup g)
      have hecol : e ∈ collectEdges g := hsub.subset (List.mem_cons_self e rest)
      have hcanon : mkEdge e.a e.b = e := collect_canonicalE hecol
      have hne : e.a ≠ e.b := collect_ends_ne hecol
      have herase : (e :: rest).erase (mkEdge e.a e.b) = rest := by
        rw [hcanon, List.erase_cons_head]
      have hrests : rest.Sublist (collectEdges g) :=
        (List.sublist_cons_self e rest).trans hsub
      have hlenle : (e :: rest).length ≤ (collectEdges g).length := hsub.length_le
      have hpar1 : ∀ v, degreeIn rest v % 2 = 1 ↔ (e.b ≠ e.a ∧ (v = e.b ∨ v = e.a)) := by
        have := @parity_first (e :: rest) _ _ (by rw [hcanon]; exact List.mem_cons_self e rest)
          hne heven
        rw [herase] at this
        exact this
      have henotrest : e ∉ rest := (List.nodup_cons.1 hnodup).1
      have hprev1 : mkEdge e.b e.a ∉ rest := by
        rw [mkEdge_comm, hcanon]
        exact henotrest
      obtain ⟨ext, es2, heq, hsub2, hmem2, hpsub2, hnd2, hlast2, heven2⟩ :=
        walkInner_spec g e.a 100000 rest e.a e.b [e.a, e.b]
          (by simp at hlenle ⊢; omega) hrests hprev1 hpar1 (by simp at hlenle ⊢; omega)
      cases hextc : ext with
      | nil =>
        exfalso
        rw [hextc] at hlast2
        simp at hlast2
        exact hne hlast2.symm
      | cons y ys =>
        obtain ⟨ext3, hext3⟩ := exists_concat_of_getLast?
          (show (y :: ys).getLast? = some e.a from by
            rw [hextc, List.getLast?_cons_cons] at hlast2
            exact hlast2)
        have hextd : ext = ext3 ++ [e.a] := by rw [hextc, hext3]
        have hext3ne : ext3 ≠ [] := by
          intro hc
          rw [hc] at hextd
          simp at hextd
          have : mkEdge e.b e.a ∈ pathEdges e.b ext := by
            rw [hextd]
            simp [pathEdges]
          have := hpsub2 _ this
          rw [mkEdge_comm, hcanon] at this
          exact henotrest this
        have hunfold : walkOuter (adjOf (collectEdges g)) (fuel+1) (e :: rest) =
            popDup ((walkInner (adjOf (collectEdges g)) e.a 100000
              ((e :: rest).erase (mkEdge e.a e.b)) e.a e.b [e.a, e.b]).1) ::
            walkOuter (adjOf (collectEdges g)) fuel
              ((walkInner (adjOf (collectEdges g)) e.a 100000
                ((e :: rest).erase (mkEdge e.a e.b)) e.a e.b [e.a, e.b]).2) := rfl
        rw [herase, heq] at hunfold
        have hpolypre : ([e.a, e.b] ++ ext) = e.a :: e.b :: (ext3 ++ [e.a]) := by
          rw [hextd]
          rfl
        rw [hpolypre] at hunfold
        rw [popDup_closed] at hunfold
        have hloopedges : loopEdgesOf (e.a :: e.b :: ext3) = e :: pathEdges e.b ext := by
          rw [loopEdges_path, hcanon, ← hextd]
        have hconsnodup : (e :: pathEdges e.b ext).Nodup := by
          rw [List.nodup_cons]
          refine ⟨?_, hnd2⟩
          intro hc
          exact henotrest (hpsub2 _ hc)
        have hconsub : ∀ e2 ∈ e :: pathEdges e.b ext, e2 ∈ e :: rest := by
          intro e2 he2
          rcases List.mem_cons.1 he2 with rfl | he2
          · exact List.mem_cons_self _ _
          · exact List.mem_cons_of_mem _ (hpsub2 _ he2)
        have hsub2r : es2.Sublist rest := hsub2
        obtain ⟨ihA, ihB⟩ := ih es2 (by
            have h1 := hsub2r.length_le
            have h2 : (e :: rest).length = rest.length + 1 := rfl
            omega)
          (hsub2r.trans hrests) heven2
        rw [hunfold]
        constructor
        · intro p hp
          rcases List.mem_cons.1 hp with rfl | hp2
          · refine ⟨by have hl3 := List.length_pos.2 hext3ne; simp; omega, ?_, ?_⟩
            · rw [hloopedges]
              exact hconsnodup
            · intro e2 he2
              rw [hloopedges] at he2
              exact hconsub e2 he2
          · obtain ⟨h3, hnd, hsubp⟩ := ihA p hp2
            exact ⟨h3, hnd, fun e2 he2 =>
              List.mem_cons_of_mem _ (hsub2r.subset (hsubp e2 he2))⟩
        · intro e2
          rw [List.countP_cons, ihB e2]
          simp only [decide_eq_true_eq]
          by_cases hmem : e2 ∈ loopEdgesOf (e.a :: e.b :: ext3)
          · have hnotes2 : e2 ∉ es2 := by
              rw [hloopedges] at hmem
              intro hc
              rcases List.mem_cons.1 hmem with rfl | hm2
              · exact henotrest ((hmem2 e2).1 hc).1
              · exact ((hmem2 e2).1 hc).2 hm2
            have hin : e2 ∈ e :: rest := by
              rw [hloopedges] at hmem
              exact hconsub e2 hmem
            rw [if_neg hnotes2, if_pos hmem, if_pos hin]
          · have hsame : (e2 ∈ es2) ↔ (e2 ∈ e :: rest) := by
              rw [hmem2 e2]
              rw [hloopedges] at hmem
              constructor
              · rintro ⟨hr, -⟩
                exact List.mem_cons_of_mem _ hr
              · intro hc
                rcases List.mem_cons.1 hc with rfl | hr
                · exact absurd (List.mem_cons_self _ _) hmem
                · exact ⟨hr, fun hc2 => hmem (List.mem_cons_of_mem _ hc2)⟩
            rw [if_neg hmem, add_zero]
            by_cases hin : e2 ∈ e :: rest
            · rw [if_pos (hsame.2 hin), if_pos hin]
            · rw [if_neg (fun hc => hin (hsame.1 hc)), if_neg hin]

theorem unitStep_of_mkEdge {p q : IntPoint} (h : unitStep (mkEdge p q).a (mkEdge p q).b) :
    unitStep p q := by
  rcases mkEdge_pair p q with ⟨ha, hb⟩ | ⟨ha, hb⟩ <;> rw [ha, hb] at h
  · exact h
  · unfold unitStep at h ⊢
    omega

/-- C6 amended: for every grid whose boundary edge set has at most 100,000
edges, every polygon produced by the loop walker (before vertex reduction)
has at least 3 points and all consecutive point pairs, including the
wrapping pair, are collected boundary edges — in particular unit grid steps,
axis-aligned, never diagonal. -/
theorem C6_walker_loops_unit (g : Grid) (hsize : (collectEdges g).length ≤ 100000) :
    ∀ p ∈ walkPolys g, 3 ≤ p.length ∧
      ∀ pr ∈ wrapPairs p, mkEdge pr.1 pr.2 ∈ collectEdges g ∧ unitStep pr.1 pr.2 := by
  intro p hp
  have hspec := walkOuter_spec g hsize (collectEdges g).length (collectEdges g)
    le_rfl (List.Sublist.refl _) (degree_collect_even g)
  have hp2 : p ∈ walkOuter (adjOf (collectEdges g)) (collectEdges g).length (collectEdges g) := by
    rw [walkPolys] at hp
    exact hp
  obtain ⟨h3, hnd, hsubp⟩ := hspec.1 p hp2
  refine ⟨h3, ?_⟩
  intro pr hpr
  have hm : mkEdge pr.1 pr.2 ∈ loopEdgesOf p := by
    unfold loopEdgesOf
    exact List.mem_map_of_mem _ hpr
  have hcol := hsubp _ hm
  exact ⟨hcol, unitStep_of_mkEdge (collect_unit hcol)⟩

/-- C6 witness: at a concrete small grid the walker loop is unit-stepped. -/
theorem C6_walker_loops_unit_witness :
    3 ≤ ([⟨0, 0⟩, ⟨1, 0⟩, ⟨1, 1⟩, ⟨0, 1⟩] : List IntPoint).length ∧
      ∀ pr ∈ wrapPairs [⟨0, 0⟩, ⟨1, 0⟩, ⟨1, 1⟩, ⟨0, 1⟩],
        mkEdge pr.1 pr.2 ∈ collectEdges gOne ∧ unitStep pr.1 pr.2 :=
  C6_walker_loops_unit gOne (by decide) [⟨0, 0⟩, ⟨1, 0⟩, ⟨1, 1⟩, ⟨0, 1⟩] (by decide)

/-! ### Walker termination bounds (C5) -/

theorem walkInner_fuel_irrelevant (adj : IntPoint → List IntPoint) (start : IntPoint) :
    ∀ (f1 f2 : Nat) (es : List Edge) (prev cur : IntPoint) (poly : List IntPoint),
      100002 ≤ poly.length + f1 → 100002 ≤ poly.length + f2 → poly.length ≤ 100001 →
      walkInner adj start f1 es prev cur poly = walkInner adj start f2 es prev cur poly := by
  intro f1
  induction f1 with
  | zero =>
    intro f2 es prev cur poly h1
    omega
  | succ n ih =>
    intro f2 es prev cur poly h1 h2 hp
    cases f2 with
    | zero => omega
    | succ m =>
      rw [walkInner, walkInner]
      by_cases hcs : cur = start
      · rw [if_pos hcs, if_pos hcs]
      · rw [if_neg hcs, if_neg hcs]
        cases hfn : findNext es prev cur (adj cur) with
        | none => rfl
        | some nxt =>
          dsimp only
          by_cases hcap : 100000 < (poly ++ [nxt]).length
          · rw [if_pos hcap, if_pos hcap]
          · rw [if_neg hcap, if_neg hcap]
            have hl : (poly ++ [nxt]).length = poly.length + 1 := by simp
            exact ih m (es.erase (mkEdge cur nxt)) cur nxt (poly ++ [nxt])
              (by omega) (by omega) (by omega)

theorem walkInner_edges_sublist (adj : IntPoint → List IntPoint) (start : IntPoint) :
    ∀ (fuel : Nat) (es : List Edge) (prev cur : IntPoint) (poly : List IntPoint),
      ((walkInner adj start fuel es prev cur poly).2).Sublist es := by
  intro fuel
  induction fuel with
  | zero => intro es prev cur poly; exact List.Sublist.refl es
  | succ n ih =>
    intro es prev cur poly
    rw [walkInner]
    by_cases hcs : cur = start
    · rw [if_pos hcs]
    · rw [if_neg hcs]
      cases hfn : findNext es prev cur (adj cur) with
      | none => exact List.Sublist.refl es
      | some nxt =>
        dsimp only
        by_cases hcap : 100000 < (poly ++ [nxt]).length
        · rw [if_pos hcap]
          exact List.erase_sublist _ _
        · rw [if_neg hcap]
          exact (ih _ _ _ _).trans (List.erase_sublist _ _)

theorem walkInner_poly_le (adj : IntPoint → List IntPoint) (start : IntPoint) :
    ∀ (fuel : Nat) (es : List Edge) (prev cur : IntPoint) (poly : List IntPoint),
      ((walkInner adj start fuel es prev cur poly).1).length ≤ max (poly.length + 1) 100001 := by
  intro fuel
  induction fuel with
  | zero =>
    intro es prev cur poly
    rw [show walkInner adj start 0 es prev cur poly = (poly, es) from rfl]
    simp
  | succ n ih =>
    intro es prev cur poly
    rw [walkInner]
    by_cases hcs : cur = start
    · rw [if_pos hcs]
      simp
    · rw [if_neg hcs]
      cases hfn : findNext es prev cur (adj cur) with
      | none =>
        simp
      | some nxt =>
        dsimp only
        by_cases hcap : 100000 < (poly ++ [nxt]).length
        · rw [if_pos hcap]
          simp
        · rw [if_neg hcap]
          have := ih (es.erase (mkEdge cur nxt)) cur nxt (poly ++ [nxt])
          have hl : (poly ++ [nxt]).length = poly.length + 1 := by simp
          simp only [hl] at this
          rw [hl] at hcap
          omega

/-- C5.  Loop-walker termination package: (i) from the walker's two-point
initial state, any fuel of at least 100,000 iterations yields the very same
result (the source's 100,000-point cap bounds the iteration count, so the
loop cannot run forever); (ii) each outer iteration strictly shrinks the
finite edge set, so the drain loop terminates; (iii) a walk's collected
point list never exceeds 100,001 points; (iv) a cap-aborted or otherwise
kept polygon of at least 3 points is passed through winding correction and
reduction like any valid loop. -/
theorem C5_walker_termination (g : Grid) (c : Int) (s : ℚ) :
    (∀ (f : Nat) (es : List Edge) (a b : IntPoint), 100000 ≤ f →
        walkInner (adjOf (collectEdges g)) a f es a b [a, b] =
          walkInner (adjOf (collectEdges g)) a 100000 es a b [a, b]) ∧
    (∀ (e : Edge) (rest : List Edge), (e :: rest).Sublist (collectEdges g) →
        ((walkInner (adjOf (collectEdges g)) e.a 100000 ((e :: rest).erase (mkEdge e.a e.b))
          e.a e.b [e.a, e.b]).2).length < (e :: rest).length) ∧
    (∀ (f : Nat) (es : List Edge) (a b : IntPoint),
        ((walkInner (adjOf (collectEdges g)) a f es a b [a, b]).1).length ≤ 100001) ∧
    (∀ p ∈ walkPolys g, 3 ≤ p.length →
        reduceLoop (correctLoop g c s p) ∈ extractLoops g c s) := by
  refine ⟨?_, ?_, ?_, ?_⟩
  · intro f es a b hf
    exact walkInner_fuel_irrelevant (adjOf (collectEdges g)) a f 100000 es a b [a, b]
      (by simp only [List.length_cons, List.length_nil]; omega)
      (by simp only [List.length_cons, List.length_nil]; omega)
      (by simp only [List.length_cons, List.length_nil]; omega)
  · intro e rest hsub
    have hecol : e ∈ collectEdges g := hsub.subset (List.mem_cons_self e rest)
    have hcanon : mkEdge e.a e.b = e := collect_canonicalE hecol
    rw [hcanon, List.erase_cons_head]
    have h1 := (walkInner_edges_sublist (adjOf (collectEdges g)) e.a 100000 rest
      e.a e.b [e.a, e.b]).length_le
    simp only [List.length_cons]
    omega
  · intro f es a b
    have := walkInner_poly_le (adjOf (collectEdges g)) a f es a b [a, b]
    simp only [List.length_cons, List.length_nil] at this
    omega
  · intro p hp h3
    unfold extractLoops keptPolys
    refine List.mem_map_of_mem _ ?_
    rw [List.mem_filter]
    exact ⟨hp, by simpa using h3⟩

/-- Witness for C5 at the 2x2-block grid: large fuel is irrelevant, each outer
iteration strictly shrinks the edge set, the safety cap bounds the polygon,
and the kept walker loop flows into the emitted loop list. -/
theorem C5_witness :
    (100000 ≤ (100003 : Nat) ∧
      walkInner (adjOf (collectEdges gBlock22)) ⟨1, 1⟩ 100003 (collectEdges gBlock22)
          ⟨1, 1⟩ ⟨2, 1⟩ [⟨1, 1⟩, ⟨2, 1⟩] =
        walkInner (adjOf (collectEdges gBlock22)) ⟨1, 1⟩ 100000 (collectEdges gBlock22)
          ⟨1, 1⟩ ⟨2, 1⟩ [⟨1, 1⟩, ⟨2, 1⟩]) ∧
    ((walkInner (adjOf (collectEdges gBlock22)) (⟨1, 1⟩ : IntPoint) 100000
        ((collectEdges gBlock22).erase (mkEdge ⟨1, 1⟩ ⟨2, 1⟩))
        ⟨1, 1⟩ ⟨2, 1⟩ [⟨1, 1⟩, ⟨2, 1⟩]).2).length < (collectEdges gBlock22).length ∧
    ((walkInner (adjOf (collectEdges gBlock22)) (⟨1, 1⟩ : IntPoint) 100000
        (collectEdges gBlock22) ⟨1, 1⟩ ⟨2, 1⟩ [⟨1, 1⟩, ⟨2, 1⟩]).1).length ≤ 100001 ∧
    ([⟨1, 1⟩, ⟨2, 1⟩, ⟨3, 1⟩, ⟨3, 2⟩, ⟨3, 3⟩, ⟨2, 3⟩, ⟨1, 3⟩, ⟨1, 2⟩] ∈ walkPolys gBlock22 ∧
      reduceLoop (correctLoop gBlock22 1 1
          [⟨1, 1⟩, ⟨2, 1⟩, ⟨3, 1⟩, ⟨3, 2⟩, ⟨3, 3⟩, ⟨2, 3⟩, ⟨1, 3⟩, ⟨1, 2⟩]) ∈
        extractLoops gBlock22 1 1) := by
  obtain ⟨h1, h2, h3, h4⟩ := C5_walker_termination gBlock22 1 1
  have hce : collectEdges gBlock22 =
      [⟨⟨1, 1⟩, ⟨2, 1⟩⟩, ⟨⟨1, 1⟩, ⟨1, 2⟩⟩, ⟨⟨2, 1⟩, ⟨3, 1⟩⟩, ⟨⟨3, 1⟩, ⟨3, 2⟩⟩,
        ⟨⟨1, 3⟩, ⟨2, 3⟩⟩, ⟨⟨1, 2⟩, ⟨1, 3⟩⟩, ⟨⟨2, 3⟩, ⟨3, 3⟩⟩, ⟨⟨3, 2⟩, ⟨3, 3⟩⟩] := by decide
  have hmem : [⟨1, 1⟩, ⟨2, 1⟩, ⟨3, 1⟩, ⟨3, 2⟩, ⟨3, 3⟩, ⟨2, 3⟩, ⟨1, 3⟩, ⟨1, 2⟩] ∈
      walkPolys gBlock22 := by decide
  refine ⟨⟨by norm_num, h1 100003 (collectEdges gBlock22) ⟨1, 1⟩ ⟨2, 1⟩ (by norm_num)⟩,
    ?_, h3 100000 (collectEdges gBlock22) ⟨1, 1⟩ ⟨2, 1⟩, hmem, h4 _ hmem (by decide)⟩
  have hsub : (Edge.mk ⟨1, 1⟩ ⟨2, 1⟩ ::
      [⟨⟨1, 1⟩, ⟨1, 2⟩⟩, ⟨⟨2, 1⟩, ⟨3, 1⟩⟩, ⟨⟨3, 1⟩, ⟨3, 2⟩⟩, ⟨⟨1, 3⟩, ⟨2, 3⟩⟩,
        ⟨⟨1, 2⟩, ⟨1, 3⟩⟩, ⟨⟨2, 3⟩, ⟨3, 3⟩⟩, ⟨⟨3, 2⟩, ⟨3, 3⟩⟩]).Sublist
      (collectEdges gBlock22) := by
    rw [hce]
  have := h2 (Edge.mk ⟨1, 1⟩ ⟨2, 1⟩)
    [⟨⟨1, 1⟩, ⟨1, 2⟩⟩, ⟨⟨2, 1⟩, ⟨3, 1⟩⟩, ⟨⟨3, 1⟩, ⟨3, 2⟩⟩, ⟨⟨1, 3⟩, ⟨2, 3⟩⟩,
      ⟨⟨1, 2⟩, ⟨1, 3⟩⟩, ⟨⟨2, 3⟩, ⟨3, 3⟩⟩, ⟨⟨3, 2⟩, ⟨3, 3⟩⟩] hsub
  rw [hce]
  exact this

/-! ### The single 3x3 solid block scenario (C8) -/

/-- 5x5 grid with a 3x3 solid block with lower-left cell (1,1). -/
def gBlock33 : Grid :=
  ⟨5, 5, fun x y => decide (1 ≤ x) && decide (x ≤ 3) && decide (1 ≤ y) && decide (y ≤ 3)⟩

theorem extract_gBlock33 : extractLoops gBlock33 1 1 =
    [[⟨1, 1⟩, ⟨4, 1⟩, ⟨4, 4⟩, ⟨1, 4⟩, ⟨1, 2⟩]] := by
  have h1 : keptPolys gBlock33 =
      [[⟨1, 1⟩, ⟨2, 1⟩, ⟨3, 1⟩, ⟨4, 1⟩, ⟨4, 2⟩, ⟨4, 3⟩, ⟨4, 4⟩, ⟨3, 4⟩, ⟨2, 4⟩, ⟨1, 4⟩,
        ⟨1, 3⟩, ⟨1, 2⟩]] := by decide
  unfold extractLoops
  rw [h1]
  norm_num [correctLoop, loopHasSolidOnRight, solidOnRightAux, wrapPairs, List.rotate,
    intSqrtQ, natSqrtLin, isSolid, gBlock33, reduceLoop, reduceRun, dirQ]

/-- C8 counterexample: a single 3x3 solid block yields one loop of 5 points,
not 4 — the reducer unconditionally keeps the walk's final point (1,2) even
though it is collinear with (1,4) and the wrap back to (1,1). -/
theorem C8_counterexample :
    extractLoops gBlock33 1 1 = [[⟨1, 1⟩, ⟨4, 1⟩, ⟨4, 4⟩, ⟨1, 4⟩, ⟨1, 2⟩]] ∧
    ∀ l ∈ extractLoops gBlock33 1 1, l.length ≠ 4 := by
  refine ⟨extract_gBlock33, ?_⟩
  rw [extract_gBlock33]
  intro l hl
  rw [List.mem_singleton.1 hl]
  norm_num

/-! ### Translation equivariance of the extraction pipeline -/

/-- Translation of a lattice point by (u, v). -/
def trP (u v : Int) (p : IntPoint) : IntPoint := ⟨p.x + u, p.y + v⟩

/-- Translation of an edge by (u, v). -/
def trE (u v : Int) (e : Edge) : Edge := ⟨trP u v e.a, trP u v e.b⟩

theorem trP_injective (u v : Int) : Function.Injective (trP u v) := by
  intro p q h
  cases p with
  | mk px py =>
    cases q with
    | mk qx qy =>
      simp only [trP, IntPoint.mk.injEq] at h
      simp only [IntPoint.mk.injEq]
      omega

theorem trE_injective (u v : Int) : Function.Injective (trE u v) := by
  intro d e h
  cases d with
  | mk da db =>
    cases e with
    | mk ea eb =>
      simp only [trE, Edge.mk.injEq] at h
      simp only [Edge.mk.injEq]
      exact ⟨trP_injective u v h.1, trP_injective u v h.2⟩

theorem mkEdge_tr (u v : Int) (p q : IntPoint) :
    mkEdge (trP u v p) (trP u v q) = trE u v (mkEdge p q) := by
  simp only [mkEdge, trP]
  by_cases h : q.x < p.x ∨ (q.x = p.x ∧ q.y < p.y)
  · rw [if_pos (show q.x + u < p.x + u ∨ (q.x + u = p.x + u ∧ q.y + v < p.y + v) by omega),
      if_pos h]
    rfl
  · rw [if_neg (show ¬(q.x + u < p.x + u ∨ (q.x + u = p.x + u ∧ q.y + v < p.y + v)) by omega),
      if_neg h]
    rfl

theorem insertEdge_tr (u v : Int) (es : List Edge) (e : Edge) :
    insertEdge (es.map (trE u v)) (trE u v e) = (insertEdge es e).map (trE u v) := by
  simp only [insertEdge, List.mem_map_of_injective (trE_injective u v)]
  by_cases h : e ∈ es
  · rw [if_pos h, if_pos h]
  · rw [if_neg h, if_neg h, List.map_append, List.map_cons, List.map_nil]

theorem cellStep_tr (g g0 : Grid) (u v : Int)
    (hrel : ∀ x y, isSolid g (x + u) (y + v) = isSolid g0 x y) (x y : Int) (es : List Edge) :
    cellStep g (x + u) (y + v) (es.map (trE u v)) = (cellStep g0 x y es).map (trE u v) := by
  have gU : isSolid g (x + u) (y + v - 1) = isSolid g0 x (y - 1) := by
    rw [show (y + v - 1 : Int) = (y - 1) + v by ring, hrel]
  have gD : isSolid g (x + u) (y + v + 1) = isSolid g0 x (y + 1) := by
    rw [show (y + v + 1 : Int) = (y + 1) + v by ring, hrel]
  have gL : isSolid g (x + u - 1) (y + v) = isSolid g0 (x - 1) y := by
    rw [show (x + u - 1 : Int) = (x - 1) + u by ring, hrel]
  have gR : isSolid g (x + u + 1) (y + v) = isSolid g0 (x + 1) y := by
    rw [show (x + u + 1 : Int) = (x + 1) + u by ring, hrel]
  have hP1 : (⟨x + u, y + v⟩ : IntPoint) = trP u v ⟨x, y⟩ := rfl
  have hP2 : (⟨x + u + 1, y + v⟩ : IntPoint) = trP u v ⟨x + 1, y⟩ := by
    simp only [trP, IntPoint.mk.injEq, and_true, true_and]
    omega
  have hP3 : (⟨x + u, y + v + 1⟩ : IntPoint) = trP u v ⟨x, y + 1⟩ := by
    simp only [trP, IntPoint.mk.injEq, and_true, true_and]
    omega
  have hP4 : (⟨x + u + 1, y + v + 1⟩ : IntPoint) = trP u v ⟨x + 1, y + 1⟩ := by
    simp only [trP, IntPoint.mk.injEq, and_true, true_and]
    omega
  simp only [cellStep, hrel x y, gU, gD, gL, gR, hP1, hP2, hP3, hP4]
  split_ifs <;> simp only [mkEdge_tr, insertEdge_tr]

/-! ### Localising the collector scan to the solid block -/

/-- Integer interval [a, b) as a list. -/
def intervalInt (a b : Int) : List Int :=
  (List.range (b - a).toNat).map (fun (k : Nat) => a + (k : Int))

theorem rangeInt_eq_interval (n : Int) : rangeInt n = intervalInt 0 n := by
  unfold rangeInt intervalInt
  rw [sub_zero]
  exact List.map_congr_left (fun k _ => (zero_add _).symm)

theorem mem_intervalInt {x a b : Int} : x ∈ intervalInt a b ↔ a ≤ x ∧ x < b := by
  unfold intervalInt
  simp only [List.mem_map, List.mem_range]
  constructor
  · rintro ⟨k, hk, rfl⟩
    omega
  · intro h
    exact ⟨(x - a).toNat, by omega, by omega⟩

theorem intervalInt_append {a b c : Int} (hab : a ≤ b) (hbc : b ≤ c) :
    intervalInt a c = intervalInt a b ++ intervalInt b c := by
  unfold intervalInt
  have h1 : (c - a).toNat = (b - a).toNat + (c - b).toNat := by omega
  rw [h1, List.range_add, List.map_append, List.map_map]
  congr 1
  apply List.map_congr_left
  intro k _
  simp only [Function.comp_apply]
  omega

theorem intervalInt_three (a : Int) : intervalInt a (a + 3) = [a, a + 1, a + 2] := by
  unfold intervalInt
  rw [show (a + 3 - a).toNat = 3 by omega, show List.range 3 = [0, 1, 2] from rfl]
  simp only [List.map_cons, List.map_nil]
  norm_num

theorem foldl_fixed {f : List Edge → Int → List Edge} :
    ∀ (l : List Int) (acc : List Edge), (∀ a x, x ∈ l → f a x = a) → l.foldl f acc = acc := by
  intro l
  induction l with
  | nil => intro acc _; rfl
  | cons x xs ih =>
    intro acc h
    rw [List.foldl_cons, h acc x (List.mem_cons_self x xs)]
    exact ih acc (fun a z hz => h a z (List.mem_cons_of_mem _ hz))

theorem row_fold_nonsolid (g : Grid) (y : Int) (l : List Int) (acc : List Edge)
    (h : ∀ x ∈ l, isSolid g x y = false) :
    l.foldl (fun a x => cellStep g x y a) acc = acc := by
  apply foldl_fixed
  intro a x hx
  simp [cellStep, h x hx]

theorem row_fold_block (g : Grid) (ox y : Int) (hox : 0 ≤ ox) (hoxW : ox + 3 ≤ g.W)
    (hleft : ∀ x, x < ox → isSolid g x y = false)
    (hright : ∀ x, ox + 3 ≤ x → isSolid g x y = false)
    (acc : List Edge) :
    (rangeInt g.W).foldl (fun a x => cellStep g x y a) acc =
      cellStep g (ox + 2) y (cellStep g (ox + 1) y (cellStep g ox y acc)) := by
  rw [rangeInt_eq_interval, intervalInt_append hox (show ox ≤ g.W by omega),
    List.foldl_append,
    row_fold_nonsolid g y _ acc (fun x hx => hleft x (mem_intervalInt.1 hx).2),
    intervalInt_append (show ox ≤ ox + 3 by omega) hoxW, List.foldl_append,
    intervalInt_three]
  rw [row_fold_nonsolid g y (intervalInt (ox + 3) g.W) _
    (fun x hx => hright x (mem_intervalInt.1 hx).1)]
  simp only [List.foldl_cons, List.foldl_nil]

theorem collectEdges_block33 (g : Grid) (ox oy : Int) (hox : 0 ≤ ox) (hoxW : ox + 3 ≤ g.W)
    (hoy : 0 ≤ oy) (hoyH : oy + 3 ≤ g.H)
    (hs : ∀ x y, isSolid g x y = true ↔ (ox ≤ x ∧ x < ox + 3 ∧ oy ≤ y ∧ y < oy + 3)) :
    collectEdges g =
      cellStep g (ox + 2) (oy + 2) (cellStep g (ox + 1) (oy + 2) (cellStep g ox (oy + 2)
        (cellStep g (ox + 2) (oy + 1) (cellStep g (ox + 1) (oy + 1) (cellStep g ox (oy + 1)
        (cellStep g (ox + 2) oy (cellStep g (ox + 1) oy (cellStep g ox oy [])))))))) := by
  have hsf : ∀ x y, ¬(ox ≤ x ∧ x < ox + 3 ∧ oy ≤ y ∧ y < oy + 3) → isSolid g x y = false := by
    intro x y h
    cases hxy : isSolid g x y
    · rfl
    · exact absurd ((hs x y).1 hxy) h
  have hrow : ∀ y acc, oy ≤ y → y < oy + 3 →
      (rangeInt g.W).foldl (fun a x => cellStep g x y a) acc =
        cellStep g (ox + 2) y (cellStep g (ox + 1) y (cellStep g ox y acc)) := by
    intro y acc h1 h2
    exact row_fold_block g ox y hox hoxW
      (fun x hx => hsf x y (by omega)) (fun x hx => hsf x y (by omega)) acc
  have hrow0 : ∀ y acc, ¬(oy ≤ y ∧ y < oy + 3) →
      (rangeInt g.W).foldl (fun a x => cellStep g x y a) acc = acc := by
    intro y acc h
    exact row_fold_nonsolid g y _ acc (fun x _ => hsf x y (by omega))
  unfold collectEdges
  rw [rangeInt_eq_interval g.H, intervalInt_append hoy (show oy ≤ g.H by omega),
    List.foldl_append,
    foldl_fixed (intervalInt 0 oy) _
      (fun a yy hyy => hrow0 yy a (by have := mem_intervalInt.1 hyy; omega)),
    intervalInt_append (show oy ≤ oy + 3 by omega) hoyH, List.foldl_append,
    intervalInt_three]
  rw [foldl_fixed (intervalInt (oy + 3) g.H) _
    (fun a yy hyy => hrow0 yy a (by have := mem_intervalInt.1 hyy; omega))]
  simp only [List.foldl_cons, List.foldl_nil]
  rw [hrow oy _ (by omega) (by omega), hrow (oy + 1) _ (by omega) (by omega),
    hrow (oy + 2) _ (by omega) (by omega)]

/-- The boundary edges of the 3x3 block with lower-left cell (1,1), in scan
insertion order. -/
def block33Edges : List Edge :=
  [⟨⟨1, 1⟩, ⟨2, 1⟩⟩, ⟨⟨1, 1⟩, ⟨1, 2⟩⟩, ⟨⟨2, 1⟩, ⟨3, 1⟩⟩, ⟨⟨3, 1⟩, ⟨4, 1⟩⟩, ⟨⟨4, 1⟩, ⟨4, 2⟩⟩,
   ⟨⟨1, 2⟩, ⟨1, 3⟩⟩, ⟨⟨4, 2⟩, ⟨4, 3⟩⟩, ⟨⟨1, 4⟩, ⟨2, 4⟩⟩, ⟨⟨1, 3⟩, ⟨1, 4⟩⟩, ⟨⟨2, 4⟩, ⟨3, 4⟩⟩,
   ⟨⟨3, 4⟩, ⟨4, 4⟩⟩, ⟨⟨4, 3⟩, ⟨4, 4⟩⟩]

theorem isSolid_gBlock33 (x y : Int) :
    isSolid gBlock33 x y = true ↔ (1 ≤ x ∧ x ≤ 3 ∧ 1 ≤ y ∧ y ≤ 3) := by
  simp only [isSolid, gBlock33, Bool.or_eq_true, decide_eq_true_eq, ge_iff_le]
  split_ifs with hb
  · simp only [Bool.false_eq_true, false_iff]
    omega
  · simp only [Bool.and_eq_true, decide_eq_true_eq]
    omega

theorem isSolid_tr33 (g : Grid) (u v : Int)
    (hs : ∀ x y, isSolid g x y = true ↔
      (1 + u ≤ x ∧ x < 1 + u + 3 ∧ 1 + v ≤ y ∧ y < 1 + v + 3)) :
    ∀ x y, isSolid g (x + u) (y + v) = isSolid gBlock33 x y := by
  intro x y
  have h1 := hs (x + u) (y + v)
  have h2 := isSolid_gBlock33 x y
  cases hA : isSolid g (x + u) (y + v) <;> cases hB : isSolid gBlock33 x y <;> try rfl
  · exfalso
    have hb := h2.1 hB
    rw [hA] at h1
    simp only [Bool.false_eq_true, false_iff] at h1
    omega
  · exfalso
    have ha := h1.1 hA
    have hb' : ¬(1 ≤ x ∧ x ≤ 3 ∧ 1 ≤ y ∧ y ≤ 3) := by
      intro hh
      rw [h2.2 hh] at hB
      cases hB
    omega

theorem collectEdges_tr33 (g : Grid) (u v : Int) (hox : 0 ≤ 1 + u)
    (hoxW : 1 + u + 3 ≤ g.W) (hoy : 0 ≤ 1 + v) (hoyH : 1 + v + 3 ≤ g.H)
    (hs : ∀ x y, isSolid g x y = true ↔
      (1 + u ≤ x ∧ x < 1 + u + 3 ∧ 1 + v ≤ y ∧ y < 1 + v + 3)) :
    collectEdges g = block33Edges.map (trE u v) := by
  have hrel := isSolid_tr33 g u v hs
  rw [collectEdges_block33 g (1 + u) (1 + v) hox hoxW hoy hoyH hs,
    show (1 + u + 1 : Int) = 2 + u by ring, show (1 + u + 2 : Int) = 3 + u by ring,
    show (1 + v + 1 : Int) = 2 + v by ring, show (1 + v + 2 : Int) = 3 + v by ring,
    show ([] : List Edge) = ([] : List Edge).map (trE u v) from rfl,
    cellStep_tr g gBlock33 u v hrel 1 1, cellStep_tr g gBlock33 u v hrel 2 1,
    cellStep_tr g gBlock33 u v hrel 3 1, cellStep_tr g gBlock33 u v hrel 1 2,
    cellStep_tr g gBlock33 u v hrel 2 2, cellStep_tr g gBlock33 u v hrel 3 2,
    cellStep_tr g gBlock33 u v hrel 1 3, cellStep_tr g gBlock33 u v hrel 2 3,
    cellStep_tr g gBlock33 u v hrel 3 3]
  exact congrArg (List.map (trE u v)) (by decide)

/-! ### Translation equivariance of the loop walker -/

theorem adjOf_tr (u v : Int) (es : List Edge) (p : IntPoint) :
    adjOf (es.map (trE u v)) (trP u v p) = (adjOf es p).map (trP u v) := by
  unfold adjOf
  suffices h : ∀ acc : List IntPoint,
      (es.map (trE u v)).foldl (fun acc2 e =>
        acc2 ++ (if e.a = trP u v p then [e.b] else []) ++
          (if e.b = trP u v p then [e.a] else [])) (acc.map (trP u v)) =
      (es.foldl (fun acc2 e =>
        acc2 ++ (if e.a = p then [e.b] else []) ++
          (if e.b = p then [e.a] else [])) acc).map (trP u v) by
    simpa using h []
  induction es with
  | nil => intro acc; rfl
  | cons e rest ih =>
    intro acc
    rw [List.map_cons, List.foldl_cons, List.foldl_cons]
    have h1 : (trE u v e).a = trP u v e.a := rfl
    have h2 : (trE u v e).b = trP u v e.b := rfl
    simp only [h1, h2, (trP_injective u v).eq_iff]
    rw [show (acc.map (trP u v) ++ (if e.a = p then [trP u v e.b] else []) ++
        (if e.b = p then [trP u v e.a] else [])) =
      ((acc ++ (if e.a = p then [e.b] else []) ++ (if e.b = p then [e.a] else [])).map
        (trP u v)) by
      rw [List.map_append, List.map_append]
      congr 1
      · congr 1
        split_ifs <;> rfl
      · split_ifs <;> rfl]
    exact ih _

theorem findNext_tr (u v : Int) (es : List Edge) (prev cur : IntPoint) :
    ∀ nbs : List IntPoint,
      findNext (es.map (trE u v)) (trP u v prev) (trP u v cur) (nbs.map (trP u v)) =
        (findNext es prev cur nbs).map (trP u v) := by
  intro nbs
  induction nbs with
  | nil => rfl
  | cons c cs ih =>
    rw [List.map_cons, findNext, findNext]
    simp only [(trP_injective u v).eq_iff, mkEdge_tr,
      List.mem_map_of_injective (trE_injective u v)]
    split_ifs <;> simp [ih]

theorem walkInner_tr (u v : Int) (adj0 adj1 : IntPoint → List IntPoint)
    (hadj : ∀ p, adj1 (trP u v p) = (adj0 p).map (trP u v)) (start : IntPoint) :
    ∀ (fuel : Nat) (es : List Edge) (prev cur : IntPoint) (poly : List IntPoint),
      walkInner adj1 (trP u v start) fuel (es.map (trE u v)) (trP u v prev) (trP u v cur)
        (poly.map (trP u v)) =
      ((walkInner adj0 start fuel es prev cur poly).1.map (trP u v),
       (walkInner adj0 start fuel es prev cur poly).2.map (trE u v)) := by
  intro fuel
  induction fuel with
  | zero => intro es prev cur poly; rfl
  | succ f ih =>
    intro es prev cur poly
    rw [walkInner, walkInner]
    by_cases hcs : cur = start
    · rw [if_pos (by rw [hcs]), if_pos hcs]
    · rw [if_neg (fun h => hcs ((trP_injective u v) h)), if_neg hcs]
      rw [hadj cur, findNext_tr]
      cases hfn : findNext es prev cur (adj0 cur) with
      | none => rw [Option.map_none']
      | some nxt =>
        rw [Option.map_some']
        dsimp only
        rw [mkEdge_tr, ← List.map_erase (trE_injective u v),
          show (poly.map (trP u v) ++ [trP u v nxt]) = (poly ++ [nxt]).map (trP u v) by
            rw [List.map_append, List.map_cons, List.map_nil],
          List.length_map]
        by_cases hcap : 100000 < (poly ++ [nxt]).length
        · rw [if_pos hcap, if_pos hcap]
        · rw [if_neg hcap, if_neg hcap]
          exact ih _ _ _ _

theorem popDup_tr (u v : Int) (poly : List IntPoint) :
    popDup (poly.map (trP u v)) = (popDup poly).map (trP u v) := by
  unfold popDup
  rw [List.getLast?_map, List.head?_map]
  by_cases h : poly ≠ [] ∧ poly.getLast? = poly.head?
  · rw [if_pos ⟨by simpa using h.1, by rw [h.2]⟩, if_pos h, List.map_dropLast]
  · rw [if_neg ?_, if_neg h]
    intro hc
    exact h ⟨by simpa using hc.1, Option.map_injective (trP_injective u v) hc.2⟩

theorem walkOuter_tr (u v : Int) (adj0 adj1 : IntPoint → List IntPoint)
    (hadj : ∀ p, adj1 (trP u v p) = (adj0 p).map (trP u v)) :
    ∀ (fuel : Nat) (es : List Edge),
      walkOuter adj1 fuel (es.map (trE u v)) =
        (walkOuter adj0 fuel es).map (List.map (trP u v)) := by
  intro fuel
  induction fuel with
  | zero => intro es; rfl
  | succ f ih =>
    intro es
    cases es with
    | nil => rfl
    | cons e rest =>
      rw [List.map_cons, walkOuter, walkOuter]
      have h1 : (trE u v e).a = trP u v e.a := rfl
      have h2 : (trE u v e).b = trP u v e.b := rfl
      rw [h1, h2, mkEdge_tr,
        show (trE u v e :: rest.map (trE u v)) = (e :: rest).map (trE u v) from rfl,
        ← List.map_erase (trE_injective u v),
        show ([trP u v e.a, trP u v e.b] : List IntPoint) = [e.a, e.b].map (trP u v) from rfl,
        walkInner_tr u v adj0 adj1 hadj]
      rw [List.map_cons]
      exact congrArg₂ _ (popDup_tr u v _) (ih _)

/-! ### Translation equivariance of winding correction and reduction -/

theorem wrapPairs_tr (u v : Int) (l : List IntPoint) :
    wrapPairs (l.map (trP u v)) = (wrapPairs l).map (Prod.map (trP u v) (trP u v)) := by
  unfold wrapPairs
  rw [← List.map_rotate, List.zip_map]

theorem solidOnRightAux_tr (g g0 : Grid) (u v : Int) (f : ℚ) (hf0 : 0 < f)
    (hrel : ∀ x y, isSolid g (x + u) (y + v) = isSolid g0 x y) :
    ∀ prs, solidOnRightAux g f (prs.map (Prod.map (trP u v) (trP u v))) =
      solidOnRightAux g0 f prs := by
  intro prs
  induction prs with
  | nil => rfl
  | cons pr rest ih =>
    obtain ⟨a, b⟩ := pr
    rw [List.map_cons]
    simp only [Prod.map, solidOnRightAux, trP]
    rw [show (b.x + u) - (a.x + u) = b.x - a.x by ring,
      show (b.y + v) - (a.y + v) = b.y - a.y by ring]
    by_cases hz : b.x - a.x = 0 ∧ b.y - a.y = 0
    · rw [if_pos hz, if_pos hz, ih]
    · rw [if_neg hz, if_neg hz]
      have hk : 1 ≤ intSqrtQ ((b.x - a.x) * (b.x - a.x) + (b.y - a.y) * (b.y - a.y)) := by
        apply intSqrtQ_pos
        rcases not_and_or.1 hz with h | h
        · have h1 : 0 < (b.x - a.x) * (b.x - a.x) := mul_self_pos.2 h
          have h2 : 0 ≤ (b.y - a.y) * (b.y - a.y) := mul_self_nonneg _
          omega
        · have h1 : 0 < (b.y - a.y) * (b.y - a.y) := mul_self_pos.2 h
          have h2 : 0 ≤ (b.x - a.x) * (b.x - a.x) := mul_self_nonneg _
          omega
      set k := intSqrtQ ((b.x - a.x) * (b.x - a.x) + (b.y - a.y) * (b.y - a.y)) with hkdef
      have hk0 : (0 : ℚ) < k := lt_of_lt_of_le one_pos hk
      by_cases hlen : f * k < 1/10000
      · rw [if_pos hlen, if_pos hlen, ih]
      · rw [if_neg hlen, if_neg hlen]
        have hfne : f ≠ 0 := ne_of_gt hf0
        have hkne : k ≠ 0 := ne_of_gt hk0
        have hxq : ((((a.x + u : Int) : ℚ) * f + ((b.x + u : Int) : ℚ) * f) / 2 +
              (-((((b.y + v : Int) : ℚ) * f - ((a.y + v : Int) : ℚ) * f) / (f * k))) *
                (f / 4)) / f
            = (((a.x : ℚ) * f + (b.x : ℚ) * f) / 2 +
              (-(((b.y : ℚ) * f - (a.y : ℚ) * f) / (f * k))) * (f / 4)) / f + (u : ℚ) := by
          push_cast
          field_simp
          ring
        have hyq : ((((a.y + v : Int) : ℚ) * f + ((b.y + v : Int) : ℚ) * f) / 2 +
              ((((b.x + u : Int) : ℚ) * f - ((a.x + u : Int) : ℚ) * f) / (f * k)) *
                (f / 4)) / f
            = (((a.y : ℚ) * f + (b.y : ℚ) * f) / 2 +
              ((((b.x : ℚ) * f - (a.x : ℚ) * f) / (f * k))) * (f / 4)) / f + (v : ℚ) := by
          push_cast
          field_simp
          ring
        rw [hxq, hyq, Int.floor_add_int, Int.floor_add_int, hrel]

theorem dirQ_tr (u v : Int) (a b : IntPoint) : dirQ (trP u v a) (trP u v b) = dirQ a b := by
  simp only [dirQ, trP]
  rw [show (b.x + u) - (a.x + u) = b.x - a.x by ring,
    show (b.y + v) - (a.y + v) = b.y - a.y by ring]

theorem reduceRun_tr (u v : Int) :
    ∀ (l : List IntPoint) (orig : ℚ × ℚ) (a : IntPoint),
      reduceRun orig (trP u v a) (l.map (trP u v)) = (reduceRun orig a l).map (trP u v) := by
  intro l
  induction l with
  | nil => intro orig a; rfl
  | cons b rest ih =>
    intro orig a
    rw [List.map_cons, reduceRun, reduceRun, dirQ_tr]
    split_ifs
    · exact ih orig b
    · rw [List.map_cons, ih (dirQ a b) b]

theorem reduceLoop_tr (u v : Int) (l : List IntPoint) :
    reduceLoop (l.map (trP u v)) = (reduceLoop l).map (trP u v) := by
  cases l with
  | nil => rfl
  | cons a rest =>
    cases rest with
    | nil => rfl
    | cons b rest2 =>
      rw [List.map_cons, List.map_cons, reduceLoop, reduceLoop, dirQ_tr,
        List.map_cons, reduceRun_tr]

/-- The walker's polygon for the 3x3 block at (1,1). -/
def block33Poly : List IntPoint :=
  [⟨1, 1⟩, ⟨2, 1⟩, ⟨3, 1⟩, ⟨4, 1⟩, ⟨4, 2⟩, ⟨4, 3⟩, ⟨4, 4⟩, ⟨3, 4⟩, ⟨2, 4⟩, ⟨1, 4⟩,
   ⟨1, 3⟩, ⟨1, 2⟩]

theorem walkPolys_gBlock33 : walkPolys gBlock33 = [block33Poly] := by decide

theorem reduceLoop_block33 :
    reduceLoop block33Poly = [⟨1, 1⟩, ⟨4, 1⟩, ⟨4, 4⟩, ⟨1, 4⟩, ⟨1, 2⟩] := by
  norm_num [block33Poly, reduceLoop, reduceRun, dirQ, intSqrtQ, natSqrtLin]

theorem solidOnRight_block33 :
    solidOnRightAux gBlock33 1 (wrapPairs block33Poly) = true := by
  norm_num [block33Poly, wrapPairs, List.rotate, solidOnRightAux, intSqrtQ, natSqrtLin,
    isSolid, gBlock33]

/-- C8 (amended): for every grid whose solid cells are exactly one 3x3 block
(in bounds, border non-solid) and any cell size and scale whose product is at
least the probe's degeneracy threshold, extraction yields exactly one loop,
and that loop has exactly 5 points: the four corner lattice points of the
block's bounding rectangle in clockwise scan order, plus the reducer's
unconditionally kept final walker point one unit above the start corner. -/
theorem C8_single_rectangle (g : Grid) (ox oy c : Int) (s : ℚ)
    (hox : 0 ≤ ox) (hoxW : ox + 3 ≤ g.W) (hoy : 0 ≤ oy) (hoyH : oy + 3 ≤ g.H)
    (hcells : ∀ x y, 0 ≤ x → x < g.W → 0 ≤ y → y < g.H →
      (g.cells x y = true ↔ (ox ≤ x ∧ x < ox + 3 ∧ oy ≤ y ∧ y < oy + 3)))
    (hf : 1/10000 ≤ (c : ℚ) * s) :
    extractLoops g c s =
      [[⟨ox, oy⟩, ⟨ox + 3, oy⟩, ⟨ox + 3, oy + 3⟩, ⟨ox, oy + 3⟩, ⟨ox, oy + 1⟩]] := by
  obtain ⟨u, rfl⟩ : ∃ u, ox = 1 + u := ⟨ox - 1, by ring⟩
  obtain ⟨v, rfl⟩ : ∃ v, oy = 1 + v := ⟨oy - 1, by ring⟩
  have hs : ∀ x y, isSolid g x y = true ↔
      (1 + u ≤ x ∧ x < 1 + u + 3 ∧ 1 + v ≤ y ∧ y < 1 + v + 3) := by
    intro x y
    simp only [isSolid, Bool.or_eq_true, decide_eq_true_eq, ge_iff_le]
    split_ifs with hb
    · simp only [Bool.false_eq_true, false_iff]
      omega
    · have hx0 : 0 ≤ x := by omega
      have hxW : x < g.W := by omega
      have hy0 : 0 ≤ y := by omega
      have hyH : y < g.H := by omega
      exact hcells x y hx0 hxW hy0 hyH
  have hrel := isSolid_tr33 g u v hs
  have hce : collectEdges g = block33Edges.map (trE u v) :=
    collectEdges_tr33 g u v hox hoxW hoy hoyH hs
  have hb33 : collectEdges gBlock33 = block33Edges := by decide
  have hwdef : ∀ g' : Grid, walkPolys g' =
      walkOuter (adjOf (collectEdges g')) (collectEdges g').length (collectEdges g') :=
    fun g' => rfl
  have hwp : walkPolys g = (walkPolys gBlock33).map (List.map (trP u v)) := by
    rw [hwdef g, hwdef gBlock33, hce, hb33, List.length_map,
      walkOuter_tr u v (adjOf block33Edges) (adjOf (block33Edges.map (trE u v)))
        (fun p => adjOf_tr u v block33Edges p) block33Edges.length block33Edges]
  have hf0 : (0 : ℚ) < (c : ℚ) * s := lt_of_lt_of_le (by norm_num) hf
  have hsor : loopHasSolidOnRight (block33Poly.map (trP u v)) g c s = true := by
    unfold loopHasSolidOnRight
    rw [wrapPairs_tr, solidOnRightAux_tr g gBlock33 u v _ hf0 hrel,
      solidOnRightAux_scale gBlock33 _ hf]
    exact solidOnRight_block33
  have hcor : correctLoop g c s (block33Poly.map (trP u v)) = block33Poly.map (trP u v) := by
    unfold correctLoop
    rw [if_pos hsor]
  unfold extractLoops keptPolys
  rw [hwp, walkPolys_gBlock33, List.map_cons, List.map_nil, List.filter_cons,
    if_pos (by rw [List.length_map]; norm_num [block33Poly]), List.filter_nil,
    List.map_cons, List.map_nil, hcor, reduceLoop_tr, reduceLoop_block33]
  simp only [List.map_cons, List.map_nil, trP, List.cons.injEq, IntPoint.mk.injEq,
    and_true, true_and]
  omega

/-- Witness for C8: a 3x3 block at (2,3) inside a 6x7 grid, cell size 2 and
scale 1/2, yields the single 5-point loop. -/
theorem C8_witness :
    extractLoops ⟨6, 7, fun x y => decide (2 ≤ x ∧ x < 5 ∧ 3 ≤ y ∧ y < 6)⟩ 2 (1/2) =
      [[⟨2, 3⟩, ⟨5, 3⟩, ⟨5, 6⟩, ⟨2, 6⟩, ⟨2, 4⟩]] := by
  have h := C8_single_rectangle ⟨6, 7, fun x y => decide (2 ≤ x ∧ x < 5 ∧ 3 ≤ y ∧ y < 6)⟩
    2 3 2 (1/2) (by norm_num) (by decide) (by norm_num) (by decide)
    (fun x y _ _ _ _ => by simp only [decide_eq_true_eq]; omega) (by norm_num)
  rw [h]
  decide

/-! ### Indexed characterisation of wrapping pairs -/

theorem get_idx_congr (l : List IntPoint) {i j : Nat} (hij : i = j) (hi : i < l.length) :
    l.get ⟨i, hi⟩ = l.get ⟨j, hij ▸ hi⟩ := by
  subst hij
  rfl

theorem get_reverse (l : List IntPoint) (i : Nat) (hi : i < l.reverse.length) :
    l.reverse.get ⟨i, hi⟩ =
      l.get ⟨l.length - 1 - i, by simp at hi; omega⟩ := by
  simp only [List.get_eq_getElem, List.getElem_reverse]

theorem mem_wrapPairs_iff {l : List IntPoint} {pr : IntPoint × IntPoint} :
    pr ∈ wrapPairs l ↔
      ((∃ (i : Nat) (h : i + 1 < l.length), pr = (l.get ⟨i, by omega⟩, l.get ⟨i + 1, h⟩)) ∨
       (∃ h : 0 < l.length, pr = (l.get ⟨l.length - 1, by omega⟩, l.get ⟨0, h⟩))) := by
  cases l with
  | nil => simp [wrapPairs]
  | cons x rest =>
    have hrot : (x :: rest).rotate 1 = rest ++ [x] := by simp [List.rotate_cons_succ]
    rw [wrapPairs, hrot, List.mem_iff_getElem]
    simp only [List.get_eq_getElem]
    constructor
    · rintro ⟨i, hi, hget⟩
      have hilen : i < (x :: rest).length := by
        simp only [List.length_zip, List.length_append, List.length_cons,
          List.length_nil, lt_min_iff] at hi
        simp only [List.length_cons]
        omega
      have hblen : i < (rest ++ [x]).length := by
        simp only [List.length_append, List.length_cons, List.length_nil]
        simp only [List.length_cons] at hilen
        omega
      rw [List.getElem_zip] at hget
      by_cases hcase : i + 1 < (x :: rest).length
      · left
        refine ⟨i, hcase, ?_⟩
        rw [← hget]
        have hb : (rest ++ [x])[i] = (x :: rest)[i + 1] := by
          rw [List.getElem_append_left (by simp only [List.length_cons] at hcase; omega),
            List.getElem_cons_succ]
        rw [hb]
      · right
        refine ⟨by simp only [List.length_cons]; omega, ?_⟩
        rw [← hget]
        have hieq : i = (x :: rest).length - 1 := by
          simp only [List.length_cons] at hcase hilen ⊢
          omega
        have hb : (rest ++ [x])[i] = (x :: rest)[0] := by
          rw [List.getElem_append_right (by simp only [List.length_cons] at hieq; omega)]
          simp only [List.getElem_cons_zero]
          have : i - rest.length = 0 := by
            simp only [List.length_cons] at hieq
            omega
          simp [this]
        rw [hb]
        subst hieq
        rfl
    · have hlen : ((x :: rest).zip (rest ++ [x])).length = (x :: rest).length := by
        simp only [List.length_zip, List.length_append, List.length_cons, List.length_nil]
        omega
      rintro (⟨i, hi, hpr⟩ | ⟨h0, hpr⟩)
      · refine ⟨i, by rw [hlen]; omega, ?_⟩
        rw [List.getElem_zip]
        rw [List.getElem_cons_succ] at hpr
        rw [List.getElem_append_left
          (show i < rest.length by simp only [List.length_cons] at hi; omega)]
        exact hpr.symm
      · refine ⟨(x :: rest).length - 1, by rw [hlen]; omega, ?_⟩
        rw [List.getElem_zip]
        rw [List.getElem_append_right
          (show rest.length ≤ (x :: rest).length - 1 by simp only [List.length_cons]; omega)]
        rw [List.getElem_singleton, List.getElem_cons_zero] at *
        exact hpr.symm

theorem wrapPairs_reverse_mem {l : List IntPoint} {pr : IntPoint × IntPoint}
    (h : pr ∈ wrapPairs l.reverse) : (pr.2, pr.1) ∈ wrapPairs l := by
  rcases mem_wrapPairs_iff.1 h with ⟨i, hi, hpr⟩ | ⟨h0, hpr⟩
  · have hn : i + 1 < l.length := by simpa using hi
    apply mem_wrapPairs_iff.2
    left
    refine ⟨l.length - 2 - i, by omega, ?_⟩
    rw [hpr]
    dsimp only
    rw [get_reverse, get_reverse]
    refine congrArg₂ Prod.mk ?_ ?_
    · exact get_idx_congr l (by omega) _
    · exact get_idx_congr l (by omega) _
  · have hn : 0 < l.length := by simpa using h0
    apply mem_wrapPairs_iff.2
    right
    refine ⟨hn, ?_⟩
    rw [hpr]
    dsimp only
    rw [get_reverse, get_reverse]
    refine congrArg₂ Prod.mk rfl ?_
    exact get_idx_congr l (by simp only [List.length_reverse]; omega) _

/-! ### Quarter-cell probes of unit edges land in the two flanking cells -/

theorem probeCell_E (x y : Int) : probeCell ⟨x, y⟩ ⟨x + 1, y⟩ = (x, y) := by
  have hlen : intSqrtQ ((x + 1 - x) * (x + 1 - x) + (y - y) * (y - y)) = 1 := by
    rw [show (x + 1 - x) * (x + 1 - x) + (y - y) * (y - y) = 1 by ring]
    norm_num [intSqrtQ, natSqrtLin]
  simp only [probeCell, hlen]
  refine congrArg₂ Prod.mk ?_ ?_
  · rw [show ((x : ℚ) + ((x + 1 : Int) : ℚ)) / 2 + (-(((y - y : Int) : ℚ) / 1)) / 4
        = (x : ℚ) + 1/2 by push_cast; ring]
    rw [Int.floor_int_add]
    norm_num
  · rw [show ((y : ℚ) + (y : ℚ)) / 2 + (((x + 1 - x : Int) : ℚ) / 1) / 4
        = (y : ℚ) + 1/4 by push_cast; ring]
    rw [Int.floor_int_add]
    norm_num

theorem probeCell_W (x y : Int) : probeCell ⟨x + 1, y⟩ ⟨x, y⟩ = (x, y - 1) := by
  have hlen : intSqrtQ ((x - (x + 1)) * (x - (x + 1)) + (y - y) * (y - y)) = 1 := by
    rw [show (x - (x + 1)) * (x - (x + 1)) + (y - y) * (y - y) = 1 by ring]
    norm_num [intSqrtQ, natSqrtLin]
  simp only [probeCell, hlen]
  refine congrArg₂ Prod.mk ?_ ?_
  · rw [show (((x + 1 : Int) : ℚ) + (x : ℚ)) / 2 + (-(((y - y : Int) : ℚ) / 1)) / 4
        = (x : ℚ) + 1/2 by push_cast; ring]
    rw [Int.floor_int_add]
    norm_num
  · rw [show ((y : ℚ) + (y : ℚ)) / 2 + (((x - (x + 1) : Int) : ℚ) / 1) / 4
        = (y : ℚ) + (-1/4) by push_cast; ring]
    rw [Int.floor_int_add]
    norm_num
    ring

theorem probeCell_S (x y : Int) : probeCell ⟨x, y⟩ ⟨x, y + 1⟩ = (x - 1, y) := by
  have hlen : intSqrtQ ((x - x) * (x - x) + (y + 1 - y) * (y + 1 - y)) = 1 := by
    rw [show (x - x) * (x - x) + (y + 1 - y) * (y + 1 - y) = 1 by ring]
    norm_num [intSqrtQ, natSqrtLin]
  simp only [probeCell, hlen]
  refine congrArg₂ Prod.mk ?_ ?_
  · rw [show ((x : ℚ) + (x : ℚ)) / 2 + (-(((y + 1 - y : Int) : ℚ) / 1)) / 4
        = (x : ℚ) + (-1/4) by push_cast; ring]
    rw [Int.floor_int_add]
    norm_num
    ring
  · rw [show ((y : ℚ) + ((y + 1 : Int) : ℚ)) / 2 + (((x - x : Int) : ℚ) / 1) / 4
        = (y : ℚ) + 1/2 by push_cast; ring]
    rw [Int.floor_int_add]
    norm_num

theorem probeCell_N (x y : Int) : probeCell ⟨x, y + 1⟩ ⟨x, y⟩ = (x, y) := by
  have hlen : intSqrtQ ((x - x) * (x - x) + (y - (y + 1)) * (y - (y + 1))) = 1 := by
    rw [show (x - x) * (x - x) + (y - (y + 1)) * (y - (y + 1)) = 1 by ring]
    norm_num [intSqrtQ, natSqrtLin]
  simp only [probeCell, hlen]
  refine congrArg₂ Prod.mk ?_ ?_
  · rw [show ((x : ℚ) + (x : ℚ)) / 2 + (-(((y - (y + 1) : Int) : ℚ) / 1)) / 4
        = (x : ℚ) + 1/4 by push_cast; ring]
    rw [Int.floor_int_add]
    norm_num
  · rw [show (((y + 1 : Int) : ℚ) + (y : ℚ)) / 2 + (((x - x : Int) : ℚ) / 1) / 4
        = (y : ℚ) + 1/2 by push_cast; ring]
    rw [Int.floor_int_add]
    norm_num

theorem probe_xor_of_mem {g : Grid} {a b : IntPoint} (hcol : mkEdge a b ∈ collectEdges g) :
    (isSolid g (probeCell a b).1 (probeCell a b).2 = true ↔
      ¬ isSolid g (probeCell b a).1 (probeCell b a).2 = true) := by
  have hunit : unitStep a b := unitStep_of_mkEdge (collect_unit hcol)
  obtain ⟨ax, ay⟩ := a
  obtain ⟨bx, by2⟩ := b
  unfold unitStep at hunit
  rcases hunit with ⟨hx, hy⟩ | ⟨hy, hx⟩
  · dsimp only at hx hy
    subst hx
    have hcases : by2 = ay + 1 ∨ ay = by2 + 1 := by omega
    rcases hcases with rfl | rfl
    · rw [probeCell_S ax ay, probeCell_N ax ay]
      rw [mkEdge_vert] at hcol
      have hxor := (vert_mem g ax ay).1 hcol
      cases h1 : isSolid g ax ay <;> cases h2 : isSolid g (ax - 1) ay <;> simp_all
    · rw [probeCell_N ax by2, probeCell_S ax by2]
      rw [mkEdge_comm, mkEdge_vert] at hcol
      have hxor := (vert_mem g ax by2).1 hcol
      cases h1 : isSolid g ax by2 <;> cases h2 : isSolid g (ax - 1) by2 <;> simp_all
  · dsimp only at hx hy
    subst hy
    have hcases : bx = ax + 1 ∨ ax = bx + 1 := by omega
    rcases hcases with rfl | rfl
    · rw [probeCell_E ax ay, probeCell_W ax ay]
      rw [mkEdge_horiz] at hcol
      have hxor := (horiz_mem g ax ay).1 hcol
      cases h1 : isSolid g ax ay <;> cases h2 : isSolid g ax (ay - 1) <;> simp_all
    · rw [probeCell_W bx ay, probeCell_E bx ay]
      rw [mkEdge_comm, mkEdge_horiz] at hcol
      have hxor := (horiz_mem g bx ay).1 hcol
      cases h1 : isSolid g bx ay <;> cases h2 : isSolid g bx (ay - 1) <;> simp_all

/-- C3 (amended): for every grid with at most 100,000 boundary edges, every
walker loop, and every consecutive edge (wrapping included) of the loop
emitted by winding correction, exactly one of the two quarter-cell probes of
that edge (right of the directed edge, and right of the reversed edge, i.e.
its left) classifies as solid.  The designated sides are not uniform across
the loop (see the counterexample), but each edge always separates one solid
from one non-solid sample. -/
theorem C3_corrected_probe (g : Grid) (c : Int) (s : ℚ)
    (hsize : (collectEdges g).length ≤ 100000) :
    ∀ p ∈ walkPolys g, ∀ pr ∈ wrapPairs (correctLoop g c s p),
      (isSolid g (probeCell pr.1 pr.2).1 (probeCell pr.1 pr.2).2 = true ↔
        ¬ isSolid g (probeCell pr.2 pr.1).1 (probeCell pr.2 pr.1).2 = true) := by
  intro p hp pr hpr
  have hspec := walkOuter_spec g hsize (collectEdges g).length (collectEdges g)
    le_rfl (List.Sublist.refl _) (degree_collect_even g)
  have hp2 : p ∈ walkOuter (adjOf (collectEdges g)) (collectEdges g).length
      (collectEdges g) := by
    rw [walkPolys] at hp
    exact hp
  obtain ⟨h3, hnd, hsubp⟩ := hspec.1 p hp2
  have hcol : ∀ q : IntPoint × IntPoint, q ∈ wrapPairs p →
      mkEdge q.1 q.2 ∈ collectEdges g := by
    intro q hq
    exact hsubp _ (List.mem_map_of_mem _ hq)
  unfold correctLoop at hpr
  split_ifs at hpr
  · exact probe_xor_of_mem (hcol pr hpr)
  · have h2 := wrapPairs_reverse_mem hpr
    have hc := hcol _ h2
    rw [mkEdge_comm] at hc
    exact probe_xor_of_mem hc

/-- Witness for C3 at the single-cell grid and the first corrected-loop
edge: exactly one of its two probe sides is solid. -/
theorem C3_witness :
    [⟨0, 0⟩, ⟨1, 0⟩, ⟨1, 1⟩, ⟨0, 1⟩] ∈ walkPolys gOne ∧
    ((⟨0, 0⟩, ⟨1, 0⟩) : IntPoint × IntPoint) ∈
      wrapPairs (correctLoop gOne 1 1 [⟨0, 0⟩, ⟨1, 0⟩, ⟨1, 1⟩, ⟨0, 1⟩]) ∧
    (isSolid gOne (probeCell ⟨0, 0⟩ ⟨1, 0⟩).1 (probeCell ⟨0, 0⟩ ⟨1, 0⟩).2 = true ↔
      ¬ isSolid gOne (probeCell ⟨1, 0⟩ ⟨0, 0⟩).1 (probeCell ⟨1, 0⟩ ⟨0, 0⟩).2 = true) := by
  have hmem : [(⟨0, 0⟩ : IntPoint), ⟨1, 0⟩, ⟨1, 1⟩, ⟨0, 1⟩] ∈ walkPolys gOne := by decide
  have hcor : correctLoop gOne 1 1 [⟨0, 0⟩, ⟨1, 0⟩, ⟨1, 1⟩, ⟨0, 1⟩] =
      [⟨0, 0⟩, ⟨1, 0⟩, ⟨1, 1⟩, ⟨0, 1⟩] := by
    norm_num [correctLoop, loopHasSolidOnRight, solidOnRightAux, wrapPairs, List.rotate,
      intSqrtQ, natSqrtLin, isSolid, gOne]
  have hpr : ((⟨0, 0⟩, ⟨1, 0⟩) : IntPoint × IntPoint) ∈
      wrapPairs (correctLoop gOne 1 1 [⟨0, 0⟩, ⟨1, 0⟩, ⟨1, 1⟩, ⟨0, 1⟩]) := by
    rw [hcor]
    decide
  have h3 := C3_corrected_probe gOne 1 1 (by decide) _ hmem _ hpr
  dsimp only at h3
  exact ⟨hmem, hpr, h3⟩

/-- C2 counterexample: with the wrapping pairs of the emitted (reduced)
loops as their implicit edge sets, the partition claim fails even on a
closed-boundary grid: the 2x2 block's solid region touches no border cell,
the collected edge ((1,1),(2,1)) exists, yet no emitted loop's wrapping
pair set contains it — vertex reduction has merged it into the longer
segment ((1,1),(3,1)). -/
theorem C2_counterexample :
    (∀ x ∈ rangeInt gBlock22.W, ∀ y ∈ rangeInt gBlock22.H,
      isSolid gBlock22 x y = true → 1 ≤ x ∧ x ≤ 2 ∧ 1 ≤ y ∧ y ≤ 2) ∧
    Edge.mk ⟨1, 1⟩ ⟨2, 1⟩ ∈ collectEdges gBlock22 ∧
    ∀ l ∈ extractLoops gBlock22 1 1, Edge.mk ⟨1, 1⟩ ⟨2, 1⟩ ∉ loopEdgesOf l := by
  refine ⟨by decide, by decide, ?_⟩
  intro l hl
  rw [extract_gBlock22, List.mem_singleton] at hl
  subst hl
  decide

/-- C2 (amended): for every grid whose boundary edge set has at most
100,000 edges, the loop walker's polygons partition the collected edge set
exactly: every polygon's implicit (wrapping) edge list is duplicate-free
and drawn from the collected edges, every collected edge lies on exactly
one polygon, no other edge lies on any polygon, and every polygon passes
the 3-point filter, so the walker polygons are exactly the loops fed to
winding correction and reduction. -/
theorem C2_edge_partition (g : Grid) (hsize : (collectEdges g).length ≤ 100000) :
    (∀ p ∈ walkPolys g, 3 ≤ p.length ∧ (loopEdgesOf p).Nodup ∧
        ∀ e ∈ loopEdgesOf p, e ∈ collectEdges g) ∧
    (∀ e ∈ collectEdges g,
        (walkPolys g).countP (fun p => decide (e ∈ loopEdgesOf p)) = 1) ∧
    (∀ e : Edge, e ∉ collectEdges g →
        (walkPolys g).countP (fun p => decide (e ∈ loopEdgesOf p)) = 0) ∧
    keptPolys g = walkPolys g := by
  have hspec := walkOuter_spec g hsize (collectEdges g).length (collectEdges g)
    le_rfl (List.Sublist.refl _) (degree_collect_even g)
  have hwp : walkPolys g = walkOuter (adjOf (collectEdges g)) (collectEdges g).length
      (collectEdges g) := by
    rw [walkPolys]
  refine ⟨?_, ?_, ?_, ?_⟩
  · intro p hp
    rw [hwp] at hp
    exact hspec.1 p hp
  · intro e he
    rw [hwp]
    have h2 := hspec.2 e
    rw [if_pos he] at h2
    exact h2
  · intro e he
    rw [hwp]
    have h2 := hspec.2 e
    rw [if_neg he] at h2
    exact h2
  · unfold keptPolys
    rw [List.filter_eq_self]
    intro p hp
    rw [hwp] at hp
    have h3 := (hspec.1 p hp).1
    simpa using h3

/-- Witness for C2 at the 2x2-block grid. -/
theorem C2_witness :
    (∀ p ∈ walkPolys gBlock22, 3 ≤ p.length ∧ (loopEdgesOf p).Nodup ∧
        ∀ e ∈ loopEdgesOf p, e ∈ collectEdges gBlock22) ∧
    (∀ e ∈ collectEdges gBlock22,
        (walkPolys gBlock22).countP (fun p => decide (e ∈ loopEdgesOf p)) = 1) ∧
    (∀ e : Edge, e ∉ collectEdges gBlock22 →
        (walkPolys gBlock22).countP (fun p => decide (e ∈ loopEdgesOf p)) = 0) ∧
    keptPolys gBlock22 = walkPolys gBlock22 :=
  C2_edge_partition gBlock22 (by decide)
